import Mathlib

/-!
# Folcolor, `src/Controller/Utility.cpp`: recursive registry sub-tree deletion

A shallow embedding of `RegDelnodeRecurse` and `DeleteRegistryPath`
(Utility.cpp, lines 156-233) and a verification of their contract.

* The registry API (`RegDeleteKeyA`, `RegOpenKeyExA`, `RegEnumKeyExA`,
  `RegCloseKey`) is external: it is a parameter of the embedding, a record of
  state-passing functions over an arbitrary state type, so that theorems can
  quantify over every behaviour of the store.
* The shared path buffer `subKeyBuffer` is represented by the C string it
  holds, the characters before the first terminator.  The code never reads a
  byte behind the first terminator, so this is all of the buffer it observes.
  Pointer stores are modelled at their index, with their bounds check against
  `SUBKEY_BUFFER_SIZE` made explicit.
* Recursion and the `do ... while` loop take fuel; running out of fuel is
  `none`.
* The machine carries a call log: one entry per registry call, together with a
  marker at the entry and at the return of every `RegDelnodeRecurse`
  invocation.  The log is ghost state: no decision of the code depends on it.
-/

namespace Folcolor

/-! ## Windows types and constants -/

/-- Registry status code (`LSTATUS`, a `LONG`). -/
abbrev LSTATUS := Int

/-- Registry key handle (`HKEY`). -/
abbrev HKEY := Nat

/-- A C string: the characters before the terminator. -/
abbrev CStr := List Char

def ERROR_SUCCESS : LSTATUS := 0
def ERROR_FILE_NOT_FOUND : LSTATUS := 2
def ERROR_ACCESS_DENIED : LSTATUS := 5
def ERROR_INVALID_HANDLE : LSTATUS := 6
def ERROR_NO_MORE_ITEMS : LSTATUS := 259

/-- The path separator, a backslash (code 92). -/
def SEP : Char := Char.ofNat 92

/-- Utility.cpp line 158: `#define SUBKEY_BUFFER_SIZE 2048`. -/
def SUBKEY_BUFFER_SIZE : Nat := 2048

/-- Windows SDK constant `MAX_PATH`, the size of the `name` array (line 192). -/
def MAX_PATH : Nat := 260

/-! ## The registry interface -/

/-- The registry calls made by the code, as state-passing functions over an
arbitrary store state.  `RegEnumKeyExA` receives the handle, the index and the
size of the name buffer. -/
structure Store (σ : Type) where
  RegDeleteKeyA : σ → HKEY → CStr → LSTATUS × σ
  RegOpenKeyExA : σ → HKEY → CStr → LSTATUS × HKEY × σ
  RegEnumKeyExA : σ → HKEY → Nat → Nat → LSTATUS × CStr × σ
  RegCloseKey : σ → HKEY → σ

/-- Entries of the call log. -/
inductive Event where
  | enter (subKey : CStr)
  | leave (subKey : CStr) (result : Bool)
  | deleteKey (rootKey : HKEY) (subKey : CStr) (status : LSTATUS)
  | openKey (rootKey : HKEY) (subKey : CStr) (status : LSTATUS) (regKey : HKEY)
  | enumKey (regKey : HKEY) (index : Nat) (status : LSTATUS) (name : CStr)
  | closeKey (regKey : HKEY)
  deriving DecidableEq, Repr

/-- The registry calls among the log entries (everything but the markers). -/
def Event.isStoreCall : Event → Bool
  | .enter _ => false
  | .leave _ _ => false
  | _ => true

/-- Machine state: the store, the C string held by the path buffer, the log. -/
structure Machine (σ : Type) where
  store : σ
  subKey : CStr
  log : List Event
  deriving DecidableEq, Repr

/-- Ways in which a run ends without returning: `fatal` is
`CRITICAL_API_ERRNO` (which ends in `CriticalErrorAbort`, line 51, and
`exit`); `outOfBounds` is an access outside the path buffer. -/
inductive Abort where
  | fatal
  | outOfBounds
  deriving DecidableEq, Repr

/-- Result of an invocation. -/
inductive Outcome where
  | returned (result : Bool)
  | aborted (a : Abort)
  deriving DecidableEq, Repr

/-- How the `do ... while` loop is left: control reaches line 213, or the run
is aborted. -/
inductive LoopExit where
  | finished
  | aborted (a : Abort)
  deriving DecidableEq, Repr

/-! ## CRT string primitives -/

/-- `strcpy_s(dest, size, src)`: the copy, or `none` (a non-zero `errno_t`)
when `src` and its terminator do not fit `size`. -/
def strcpy_s (size : Nat) (src : CStr) : Option CStr :=
  if src.length < size then some src else none

/-- `strcat_s(dest, size, src)`: the concatenation, or `none` (a non-zero
`errno_t`) when the result and its terminator do not fit `size`. -/
def strcat_s (dest : CStr) (size : Nat) (src : CStr) : Option CStr :=
  if dest.length + src.length < size then some (dest ++ src) else none

/-! ## Registry calls with logging -/

variable {σ : Type}

/-- `RegDeleteKeyA(rootKey, subKey)` on the current buffer. -/
def callDelete (S : Store σ) (rootKey : HKEY) (m : Machine σ) : LSTATUS × Machine σ :=
  let r := S.RegDeleteKeyA m.store rootKey m.subKey
  (r.1, { store := r.2, subKey := m.subKey,
          log := m.log ++ [Event.deleteKey rootKey m.subKey r.1] })

/-- `RegOpenKeyExA(rootKey, subKey, 0, KEY_READ, &regKey)` on the current buffer. -/
def callOpen (S : Store σ) (rootKey : HKEY) (m : Machine σ) : LSTATUS × HKEY × Machine σ :=
  let r := S.RegOpenKeyExA m.store rootKey m.subKey
  (r.1, r.2.1, { store := r.2.2, subKey := m.subKey,
                 log := m.log ++ [Event.openKey rootKey m.subKey r.1 r.2.1] })

/-- `RegEnumKeyExA(regKey, 0, name, &size, ...)` with `size = _countof(name)`. -/
def callEnum (S : Store σ) (regKey : HKEY) (m : Machine σ) : LSTATUS × CStr × Machine σ :=
  let r := S.RegEnumKeyExA m.store regKey 0 MAX_PATH
  (r.1, r.2.1, { store := r.2.2, subKey := m.subKey,
                 log := m.log ++ [Event.enumKey regKey 0 r.1 r.2.1] })

/-- `RegCloseKey(regKey)`. -/
def callClose (S : Store σ) (regKey : HKEY) (m : Machine σ) : Machine σ :=
  { store := S.RegCloseKey m.store regKey, subKey := m.subKey,
    log := m.log ++ [Event.closeKey regKey] }

/-! ## The code -/

/-- Lines 198-210, the `do ... while (lStatus == ERROR_SUCCESS)` loop, entered
with the child `name` just enumerated.  `recurse` is the recursive call of
line 204; `endPtr` is the index of the byte behind the separator.

* line 200, `*endPtr = 0`: a store at index `endPtr`, which cuts the string
  there (or leaves it as it is when it is shorter);
* lines 201-203: `strcat_s`, fatal on failure;
* lines 204-205: recursion, `break` on `FALSE`;
* lines 207-208: the next enumeration, again at index 0. -/
def enumLoop (S : Store σ) (recurse : Machine σ → Option (Outcome × Machine σ))
    (regKey : HKEY) (endPtr : Nat) : Nat → CStr → Machine σ → Option (LoopExit × Machine σ)
  | 0, _, _ => none
  | fuel + 1, name, m =>
    if endPtr < SUBKEY_BUFFER_SIZE then
      match strcat_s (m.subKey.take endPtr) SUBKEY_BUFFER_SIZE name with
      | none => some (.aborted .fatal, { m with subKey := m.subKey.take endPtr })
      | some path =>
        match recurse { m with subKey := path } with
        | none => none
        | some (.aborted a, m1) => some (.aborted a, m1)
        | some (.returned false, m1) => some (.finished, m1)
        | some (.returned true, m1) =>
          if (callEnum S regKey m1).1 = ERROR_SUCCESS then
            enumLoop S recurse regKey endPtr fuel (callEnum S regKey m1).2.1 (callEnum S regKey m1).2.2
          else some (.finished, (callEnum S regKey m1).2.2)
    else some (.aborted .outOfBounds, m)

/-- Lines 184-189: `endPtr = subKey + strlen(subKey)`, then the separator is
appended when the path does not end in one.  Returns the index `endPtr` and
the machine, or `none` for an access outside the buffer:

* `*(endPtr - 1)` reads index `strlen - 1`, which lies before the buffer when
  the string is empty;
* `*endPtr++ = SEP; *endPtr = 0;` stores the separator at index `strlen` and
  the new terminator at index `strlen + 1`; the code has no check of these
  indices against the buffer size. -/
def appendSeparator (m : Machine σ) : Option (Nat × Machine σ) :=
  if m.subKey.length = 0 then none
  else if m.subKey.getLast? ≠ some SEP then
    if m.subKey.length + 1 < SUBKEY_BUFFER_SIZE then
      some (m.subKey.length + 1, { m with subKey := m.subKey ++ [SEP] })
    else none
  else some (m.subKey.length, m)

/-- Lines 192-211: the first enumeration (index 0) and, when it succeeds, the
loop. -/
def enumChildren (S : Store σ) (recurse : Machine σ → Option (Outcome × Machine σ))
    (regKey : HKEY) (endPtr : Nat) (fuel : Nat) (m : Machine σ) :
    Option (LoopExit × Machine σ) :=
  if (callEnum S regKey m).1 = ERROR_SUCCESS then
    enumLoop S recurse regKey endPtr fuel (callEnum S regKey m).2.1 (callEnum S regKey m).2.2
  else some (.finished, (callEnum S regKey m).2.2)

/-- Lines 213-223: `endPtr--; *endPtr = 0;`, `RegCloseKey`, the second
`RegDeleteKeyA` and the return of its result. -/
def finishNode (S : Store σ) (rootKey regKey : HKEY) (entry : CStr) (endPtr : Nat)
    (m : Machine σ) : Outcome × Machine σ :=
  let r := callDelete S rootKey
    (callClose S regKey { m with subKey := m.subKey.take (endPtr - 1) })
  (.returned (decide (r.1 = ERROR_SUCCESS)),
    { r.2 with log := r.2.log ++ [Event.leave entry (decide (r.1 = ERROR_SUCCESS))] })

/-- Lines 183-223: what `RegDelnodeRecurse` does once the key is open.  The
buffer still holds the path of the invocation, which labels the return marker. -/
def walkNode (S : Store σ) (rootKey : HKEY)
    (recurse : Machine σ → Option (Outcome × Machine σ)) (fuel : Nat)
    (regKey : HKEY) (m : Machine σ) : Option (Outcome × Machine σ) :=
  match appendSeparator m with
  | none => some (.aborted .outOfBounds, m)
  | some (endPtr, m2) =>
    match enumChildren S recurse regKey endPtr fuel m2 with
    | none => none
    | some (.aborted a, m3) => some (.aborted a, m3)
    | some (.finished, m3) => some (finishNode S rootKey regKey m.subKey endPtr m3)

/-- Lines 159-224, `RegDelnodeRecurse(rootKey, subKey)`, where `subKey` points
to the shared buffer `m.subKey`.

* lines 162-164: direct delete, `TRUE` on success;
* lines 167-181: open; `TRUE` on `ERROR_FILE_NOT_FOUND`, `FALSE` on another
  error;
* lines 183-223: `walkNode`, with the recursive call of line 204. -/
def RegDelnodeRecurse (S : Store σ) (rootKey : HKEY) :
    Nat → Machine σ → Option (Outcome × Machine σ)
  | 0, _ => none
  | fuel + 1, m =>
    let d := callDelete S rootKey { m with log := m.log ++ [Event.enter m.subKey] }
    if d.1 = ERROR_SUCCESS then
      some (.returned true, { d.2 with log := d.2.log ++ [Event.leave m.subKey true] })
    else
      let o := callOpen S rootKey d.2
      if o.1 ≠ ERROR_SUCCESS then
        if o.1 = ERROR_FILE_NOT_FOUND then
          some (.returned true, { o.2.2 with log := o.2.2.log ++ [Event.leave m.subKey true] })
        else
          some (.returned false, { o.2.2 with log := o.2.2.log ++ [Event.leave m.subKey false] })
      else
        walkNode S rootKey (RegDelnodeRecurse S rootKey fuel) fuel o.2.1 o.2.2

/-- Lines 226-233, `DeleteRegistryPath(hKeyRoot, subKey)`: a fresh buffer,
seeded with `strcpy_s` (fatal on failure), then the recursive walk. -/
def DeleteRegistryPath (S : Store σ) (fuel : Nat) (hKeyRoot : HKEY) (s : σ) (subKey : CStr) :
    Option (Outcome × Machine σ) :=
  match strcpy_s SUBKEY_BUFFER_SIZE subKey with
  | none => some (.aborted .fatal, { store := s, subKey := [], log := [] })
  | some buf => RegDelnodeRecurse S hKeyRoot fuel { store := s, subKey := buf, log := [] }

/-! ## A scripted store

Every finite behaviour of the registry can be scripted: each call takes the
next answer of its kind from a list. -/

/-- The answers still to be given. -/
structure Script where
  deletes : List LSTATUS
  opens : List (LSTATUS × HKEY)
  enums : List (LSTATUS × CStr)
  deriving DecidableEq, Repr

/-- The store that answers from the script (and with `ERROR_INVALID_HANDLE`
once a list is used up). -/
def scripted : Store Script where
  RegDeleteKeyA := fun s _ _ =>
    (s.deletes.headD ERROR_INVALID_HANDLE, { s with deletes := s.deletes.tail })
  RegOpenKeyExA := fun s _ _ =>
    ((s.opens.headD (ERROR_INVALID_HANDLE, 0)).1, (s.opens.headD (ERROR_INVALID_HANDLE, 0)).2,
      { s with opens := s.opens.tail })
  RegEnumKeyExA := fun s _ _ _ =>
    ((s.enums.headD (ERROR_INVALID_HANDLE, [])).1, (s.enums.headD (ERROR_INVALID_HANDLE, [])).2,
      { s with enums := s.enums.tail })
  RegCloseKey := fun s _ => s

/-! ## The shape of a call log

The events one invocation appends to the log, by the way it ends.  The shape
is derived from the code (`RegDelnodeRecurse_shape` below); the properties of
call logs are read off it. -/

/-- The path `p` of the second delete (line 219) of an invocation entered with
the path `q`: `q` itself when `q` does not end in a separator, and `q` without
that separator when it ends in exactly one.  (Entered with a path that ends in
two separators, lines 213-214 cut the buffer wherever the walk left it.) -/
abbrev OwnPath (q p : CStr) : Prop :=
  (q.getLast? ≠ some SEP → p = q) ∧
  (q.getLast? = some SEP → q.dropLast.getLast? ≠ some SEP → p = q.dropLast)

/-- Which part of a run a stretch of the log belongs to: an invocation entered
with path `subKey`, the enumeration of the children of an open key from a call
of `RegEnumKeyExA` on, or the same from the loop body on. -/
inductive Mode where
  | node (subKey : CStr) (o : Outcome)
  | kids (regKey : HKEY) (x : LoopExit)
  | iter (regKey : HKEY) (x : LoopExit)

/-- The logs the code can write. -/
inductive Shape (rootKey : HKEY) : Mode → List Event → Prop
  | direct (p : CStr) :
      Shape rootKey (.node p (.returned true))
        [.enter p, .deleteKey rootKey p ERROR_SUCCESS, .leave p true]
  | notOpened (p : CStr) (st st2 : LSTATUS) (h : HKEY) :
      st ≠ ERROR_SUCCESS → st2 ≠ ERROR_SUCCESS →
      Shape rootKey (.node p (.returned (decide (st2 = ERROR_FILE_NOT_FOUND))))
        [.enter p, .deleteKey rootKey p st, .openKey rootKey p st2 h,
         .leave p (decide (st2 = ERROR_FILE_NOT_FOUND))]
  | separatorOut (p : CStr) (st : LSTATUS) (h : HKEY) :
      st ≠ ERROR_SUCCESS →
      Shape rootKey (.node p (.aborted .outOfBounds))
        [.enter p, .deleteKey rootKey p st, .openKey rootKey p ERROR_SUCCESS h]
  | walkAborted (p : CStr) (st : LSTATUS) (h : HKEY) (a : Abort) (ks : List Event) :
      st ≠ ERROR_SUCCESS → Shape rootKey (.kids h (.aborted a)) ks →
      Shape rootKey (.node p (.aborted a))
        (.enter p :: .deleteKey rootKey p st :: .openKey rootKey p ERROR_SUCCESS h :: ks)
  | walked (p : CStr) (st : LSTATUS) (h : HKEY) (ks : List Event) (p2 : CStr) (st2 : LSTATUS) :
      st ≠ ERROR_SUCCESS → Shape rootKey (.kids h .finished) ks →
      OwnPath p p2 →
      Shape rootKey (.node p (.returned (decide (st2 = ERROR_SUCCESS))))
        (.enter p :: .deleteKey rootKey p st :: .openKey rootKey p ERROR_SUCCESS h ::
          (ks ++ [.closeKey h, .deleteKey rootKey p2 st2,
                  .leave p (decide (st2 = ERROR_SUCCESS))]))
  | enumFailed (h : HKEY) (st : LSTATUS) (name : CStr) :
      st ≠ ERROR_SUCCESS → Shape rootKey (.kids h .finished) [.enumKey h 0 st name]
  | enumerated (h : HKEY) (name : CStr) (x : LoopExit) (it : List Event) :
      Shape rootKey (.iter h x) it →
      Shape rootKey (.kids h x) (.enumKey h 0 ERROR_SUCCESS name :: it)
  | childFailed (h : HKEY) (p : CStr) (seg : List Event) :
      Shape rootKey (.node p (.returned false)) seg → Shape rootKey (.iter h .finished) seg
  | childAborted (h : HKEY) (p : CStr) (a : Abort) (seg : List Event) :
      Shape rootKey (.node p (.aborted a)) seg → Shape rootKey (.iter h (.aborted a)) seg
  | composeAborted (h : HKEY) (a : Abort) : Shape rootKey (.iter h (.aborted a)) []
  | childDeleted (h : HKEY) (p : CStr) (x : LoopExit) (seg ks : List Event) :
      Shape rootKey (.node p (.returned true)) seg → Shape rootKey (.kids h x) ks →
      Shape rootKey (.iter h x) (seg ++ ks)

/-! ### What follows a failure

A reader of the log that, after a child invocation has returned `FALSE` or an
enumeration has failed, accepts only the three events `RegCloseKey`,
`RegDeleteKeyA` and the return of that delete's result. -/

/-- Where the reader stands: no failure pending; an invocation has just
returned `FALSE`; an enumeration on `regKey` has just failed; the close has
been seen; the delete of `subKey` has been seen, with `status`. -/
inductive Phase where
  | idle
  | failed
  | enumFailed (regKey : HKEY)
  | closed
  | deleted (subKey : CStr) (status : LSTATUS)
  deriving DecidableEq, Repr

/-- What a return after the delete of `p` with status `st` does: it must
report the result of that delete, and the path deleted must be the own path
of the invocation that returns. -/
def Phase.afterLeave (p : CStr) (st : LSTATUS) (q : CStr) (b : Bool) : Option Phase :=
  if b = decide (st = ERROR_SUCCESS) ∧ OwnPath q p then
    (if b then some .idle else some .failed)
  else none

/-- One event. -/
def Phase.step (rootKey : HKEY) : Phase → Event → Option Phase
  | .idle, .leave _ false => some .failed
  | .idle, .enumKey h _ st _ =>
      if st = ERROR_SUCCESS then some .idle else some (.enumFailed h)
  | .idle, _ => some .idle
  | .failed, .closeKey _ => some .closed
  | .failed, _ => none
  | .enumFailed h, .closeKey h2 => if h2 = h then some .closed else none
  | .enumFailed _, _ => none
  | .closed, .deleteKey r p st => if r = rootKey then some (.deleted p st) else none
  | .closed, _ => none
  | .deleted p st, .leave q b => Phase.afterLeave p st q b
  | .deleted _ _, _ => none

/-- A whole log. -/
def Phase.run (rootKey : HKEY) : Phase → List Event → Option Phase
  | q, [] => some q
  | q, e :: es => (q.step rootKey e).bind (fun q2 => Phase.run rootKey q2 es)

/-- The phases in which a stretch of the log can leave the reader. -/
def Mode.ends : Mode → Phase → Prop
  | .node _ (.returned false), q => q = .failed
  | .node _ _, q => q = .idle
  | .kids h .finished, q => q = .failed ∨ q = .enumFailed h
  | .kids _ _, q => q = .idle
  | .iter h .finished, q => q = .failed ∨ q = .enumFailed h
  | .iter _ _, q => q = .idle

/-- The stretches of the log that are not cut short by an abort. -/
def Mode.completes : Mode → Prop
  | .node _ (.returned _) => True
  | .kids _ .finished => True
  | .iter _ .finished => True
  | _ => False

/-- The events after which the enclosing invocation stops enumerating: the
return of `FALSE` by an invocation, and a failed `RegEnumKeyExA`. -/
def Event.isFailure : Event → Bool
  | .leave _ false => true
  | .enumKey _ _ st _ => decide (st ≠ ERROR_SUCCESS)
  | _ => false

/-! ### Handles as a scoped resource -/

/-- Entries of the scope stack: an invocation that has not returned, or a
handle that is open. -/
inductive Slot where
  | frame
  | handle (regKey : HKEY)
  deriving DecidableEq, Repr

/-- One event against the scope stack: an entry pushes a frame, a successful
open pushes its handle, a close must close the handle on top, a return must
find its own frame on top, with no handle left above it. -/
def scopeStep (stk : List Slot) : Event → Option (List Slot)
  | .enter _ => some (.frame :: stk)
  | .leave _ _ =>
    match stk with
    | .frame :: rest => some rest
    | _ => none
  | .openKey _ _ st h => if st = ERROR_SUCCESS then some (.handle h :: stk) else some stk
  | .closeKey h =>
    match stk with
    | .handle h2 :: rest => if h = h2 then some rest else none
    | _ => none
  | _ => some stk

/-- A whole log against the scope stack. -/
def scopeRun : List Slot → List Event → Option (List Slot)
  | stk, [] => some stk
  | stk, e :: es => (scopeStep stk e).bind (fun stk2 => scopeRun stk2 es)

/-! ## A well-behaved store

The registry belongs to the operating system; the sources only call it.  The
specification describes the store it expects: a finite tree of named nodes,
from which a node can be deleted when it has no child.  This section writes
that description down as an instance of `Store`. -/

/-- Modelled from the spec: the registry (external, not in the sources) reads
a path as the names between its separators (`A\B` is `[A, B]`). -/
def splitPath : CStr → List CStr
  | [] => [[]]
  | c :: cs =>
    if c = SEP then [] :: splitPath cs
    else
      match splitPath cs with
      | [] => [[c]]
      | n :: ns => (c :: n) :: ns

/-- Modelled from the spec: the state of the registry (external, not in the
sources) as a well-behaved store.  `keys` are the nodes of the tree under the
root, each given by the names on its path, in the order in which the store
enumerates them (any order can be listed); `handles` are the open handles with
the node each belongs to; `nextHandle` is the next handle to hand out. -/
structure Registry where
  keys : List (List CStr)
  handles : List (HKEY × List CStr)
  nextHandle : HKEY
  deriving DecidableEq, Repr

/-- The names of the children of node `k`, in the order of enumeration. -/
def Registry.childNames (s : Registry) (k : List CStr) : List CStr :=
  s.keys.filterMap (fun q => if q.dropLast = k then q.getLast? else none)

/-- Modelled from the spec: the calls of the registry (external, not in the
sources) on a well-behaved store.

* `RegDeleteKeyA` succeeds exactly on an existing node without children, and
  removes it; it reports `ERROR_FILE_NOT_FOUND` for a missing node and
  `ERROR_ACCESS_DENIED` for a node with children;
* `RegOpenKeyExA` succeeds exactly on an existing node, with a fresh handle,
  and reports `ERROR_FILE_NOT_FOUND` otherwise;
* `RegEnumKeyExA` returns the name of the child at the index among the
  children that remain, or `ERROR_NO_MORE_ITEMS`;
* `RegCloseKey` releases the handle. -/
def registry : Store Registry where
  RegDeleteKeyA := fun s _ subKey =>
    if splitPath subKey ∈ s.keys then
      if s.childNames (splitPath subKey) = [] then
        (ERROR_SUCCESS, { s with keys := s.keys.filter (fun q => q ≠ splitPath subKey) })
      else (ERROR_ACCESS_DENIED, s)
    else (ERROR_FILE_NOT_FOUND, s)
  RegOpenKeyExA := fun s _ subKey =>
    if splitPath subKey ∈ s.keys then
      (ERROR_SUCCESS, s.nextHandle,
        { s with handles := (s.nextHandle, splitPath subKey) :: s.handles,
                 nextHandle := s.nextHandle + 1 })
    else (ERROR_FILE_NOT_FOUND, 0, s)
  RegEnumKeyExA := fun s regKey index _ =>
    match s.handles.lookup regKey with
    | none => (ERROR_INVALID_HANDLE, [], s)
    | some k =>
      match (s.childNames k)[index]? with
      | none => (ERROR_NO_MORE_ITEMS, [], s)
      | some name => (ERROR_SUCCESS, name, s)
  RegCloseKey := fun s regKey =>
    { s with handles := s.handles.eraseP (fun e => e.1 == regKey) }

/-- Modelled from the spec: the registry (external, not in the sources) holds
a tree.  Every name is non-empty and has no separator, every node but those
directly under the root has its parent in the store, and no node is listed
twice. -/
structure Registry.WF (s : Registry) : Prop where
  names : ∀ q ∈ s.keys, q ≠ [] ∧ ∀ n ∈ q, n ≠ [] ∧ SEP ∉ n
  parents : ∀ q ∈ s.keys, q.dropLast ≠ [] → q.dropLast ∈ s.keys
  nodup : s.keys.Nodup

/-- The paths of node `k` and of all its descendants fit the buffer, with
their terminator. -/
def Registry.Fits (s : Registry) (k : List CStr) : Prop :=
  ∀ Q : CStr, splitPath Q ∈ s.keys → k <+: splitPath Q → Q.length < SUBKEY_BUFFER_SIZE

/-- The number of nodes at or below `k`. -/
def Registry.size (s : Registry) (k : List CStr) : Nat :=
  s.keys.countP (fun q => decide (k <+: q))

/-- The registry calls of the loop over the children `cs` of the node with
path `p`, all of them leaves: for each child its enumeration at index 0 on
`regKey` and the delete of the child's path. -/
def childCalls (rootKey regKey : HKEY) (p : CStr) : List CStr → List Event
  | [] => []
  | c :: cs =>
    .enumKey regKey 0 ERROR_SUCCESS c :: .deleteKey rootKey (p ++ [SEP] ++ c) ERROR_SUCCESS ::
      childCalls rootKey regKey p cs

/-- The same with the markers of the invocation on each child. -/
def childLog (rootKey regKey : HKEY) (p : CStr) : List CStr → List Event
  | [] => []
  | c :: cs =>
    .enumKey regKey 0 ERROR_SUCCESS c :: .enter (p ++ [SEP] ++ c) ::
      .deleteKey rootKey (p ++ [SEP] ++ c) ERROR_SUCCESS :: .leave (p ++ [SEP] ++ c) true ::
      childLog rootKey regKey p cs

/-! ## Sample stores and runs -/

/-- The path `A`. -/
def pathA : CStr := ['A']

/-- The path of the child `B` of `A`. -/
def pathAB : CStr := ['A', SEP, 'B']

/-- Script: `A` has a child `B` that can neither be deleted nor opened
(`ERROR_ACCESS_DENIED`), and the second delete of `A` is refused. -/
def childDenied : Script :=
  { deletes := [ERROR_ACCESS_DENIED, ERROR_ACCESS_DENIED, ERROR_ACCESS_DENIED],
    opens := [(ERROR_SUCCESS, 1), (ERROR_ACCESS_DENIED, 0)],
    enums := [(ERROR_SUCCESS, ['B'])] }

/-- The log of `DeleteRegistryPath` on `A` against `childDenied`. -/
def childDeniedLog : List Event :=
  [.enter pathA, .deleteKey 0 pathA ERROR_ACCESS_DENIED, .openKey 0 pathA ERROR_SUCCESS 1,
   .enumKey 1 0 ERROR_SUCCESS ['B'],
   .enter pathAB, .deleteKey 0 pathAB ERROR_ACCESS_DENIED,
   .openKey 0 pathAB ERROR_ACCESS_DENIED 0, .leave pathAB false,
   .closeKey 1, .deleteKey 0 pathA ERROR_ACCESS_DENIED, .leave pathA false]

/-- Script: as `childDenied`, but the store accepts the second delete of `A`. -/
def childDeniedThenDeleted : Script :=
  { deletes := [ERROR_ACCESS_DENIED, ERROR_ACCESS_DENIED, ERROR_SUCCESS],
    opens := [(ERROR_SUCCESS, 1), (ERROR_ACCESS_DENIED, 0)],
    enums := [(ERROR_SUCCESS, ['B'])] }

/-- Script: the first delete is refused, the key opens, the enumeration fails
with `ERROR_ACCESS_DENIED`, the second delete succeeds. -/
def enumDenied : Script :=
  { deletes := [ERROR_ACCESS_DENIED, ERROR_SUCCESS],
    opens := [(ERROR_SUCCESS, 1)],
    enums := [(ERROR_ACCESS_DENIED, [])] }

/-- The log of `DeleteRegistryPath` on `A` against `enumDenied`. -/
def enumDeniedLog : List Event :=
  [.enter pathA, .deleteKey 0 pathA ERROR_ACCESS_DENIED, .openKey 0 pathA ERROR_SUCCESS 1,
   .enumKey 1 0 ERROR_ACCESS_DENIED [],
   .closeKey 1, .deleteKey 0 pathA ERROR_SUCCESS, .leave pathA true]

/-- Script: the first delete is refused, the key opens and has no child, the
second delete succeeds. -/
def emptyKey : Script :=
  { deletes := [ERROR_ACCESS_DENIED, ERROR_SUCCESS],
    opens := [(ERROR_SUCCESS, 1)],
    enums := [(ERROR_NO_MORE_ITEMS, [])] }

/-- Script: the direct delete is refused and the key opens. -/
def openedKey : Script :=
  { deletes := [ERROR_ACCESS_DENIED], opens := [(ERROR_SUCCESS, 1)], enums := [] }

/-- The script when all answers have been given. -/
def usedUp : Script := { deletes := [], opens := [], enums := [] }

/-- The path of the child `C` of `A`. -/
def pathAC : CStr := ['A', SEP, 'C']

/-- A store with the keys `A`, `A\B`, `A\B\D`, `A\C` and `X`. -/
def sampleTree : Registry :=
  { keys := [[['A']], [['A'], ['B']], [['A'], ['B'], ['D']], [['A'], ['C']], [['X']]],
    handles := [], nextHandle := 1 }

/-- A store with the keys `A`, `A\B`, `A\C` and `X`. -/
def sampleFlat : Registry :=
  { keys := [[['A']], [['A'], ['B']], [['A'], ['C']], [['X']]],
    handles := [], nextHandle := 1 }

/-- A name of 2046 characters. -/
def longName : CStr := List.replicate 2046 'a'

/-- A store with a key of that name and its child `B`. -/
def longParent : Registry :=
  { keys := [[longName], [longName, ['B']]], handles := [], nextHandle := 1 }

/-- A path that names no node of the sample tree. -/
def pathM : CStr := ['M']

/-- A path of 2048 characters. -/
def tooLong : CStr := List.replicate 2048 'a'

@[simp] theorem callDelete_subKey (S : Store σ) (r : HKEY) (m : Machine σ) :
    (callDelete S r m).2.subKey = m.subKey := rfl
@[simp] theorem callDelete_log (S : Store σ) (r : HKEY) (m : Machine σ) :
    (callDelete S r m).2.log = m.log ++ [Event.deleteKey r m.subKey (callDelete S r m).1] := rfl
@[simp] theorem callOpen_subKey (S : Store σ) (r : HKEY) (m : Machine σ) :
    (callOpen S r m).2.2.subKey = m.subKey := rfl
@[simp] theorem callOpen_log (S : Store σ) (r : HKEY) (m : Machine σ) :
    (callOpen S r m).2.2.log
      = m.log ++ [Event.openKey r m.subKey (callOpen S r m).1 (callOpen S r m).2.1] := rfl
@[simp] theorem callEnum_subKey (S : Store σ) (h : HKEY) (m : Machine σ) :
    (callEnum S h m).2.2.subKey = m.subKey := rfl
@[simp] theorem callEnum_log (S : Store σ) (h : HKEY) (m : Machine σ) :
    (callEnum S h m).2.2.log
      = m.log ++ [Event.enumKey h 0 (callEnum S h m).1 (callEnum S h m).2.1] := rfl
@[simp] theorem callClose_subKey (S : Store σ) (h : HKEY) (m : Machine σ) :
    (callClose S h m).subKey = m.subKey := rfl
@[simp] theorem callClose_log (S : Store σ) (h : HKEY) (m : Machine σ) :
    (callClose S h m).log = m.log ++ [Event.closeKey h] := rfl

/-- What `appendSeparator` returns when it returns. -/
theorem appendSeparator_some {m m2 : Machine σ} {endPtr : Nat}
    (h : appendSeparator m = some (endPtr, m2)) :
    m.subKey ≠ [] ∧ m2.store = m.store ∧ m2.log = m.log ∧
      ((m.subKey.getLast? ≠ some SEP ∧ m2.subKey = m.subKey ++ [SEP] ∧
          endPtr = m.subKey.length + 1 ∧ m.subKey.length + 1 < SUBKEY_BUFFER_SIZE) ∨
       (m.subKey.getLast? = some SEP ∧ m2 = m ∧ endPtr = m.subKey.length)) := by
  simp only [appendSeparator] at h
  split at h
  · simp at h
  · rename_i hlen
    have hne : m.subKey ≠ [] := fun hnil => hlen (by simp [hnil])
    split at h
    · rename_i hsep
      split at h
      · rename_i hfit
        simp only [Option.some.injEq, Prod.mk.injEq] at h
        obtain ⟨rfl, rfl⟩ := h
        exact ⟨hne, rfl, rfl, Or.inl ⟨hsep, rfl, rfl, hfit⟩⟩
      · simp at h
    · rename_i hsep
      simp only [Option.some.injEq, Prod.mk.injEq] at h
      obtain ⟨rfl, rfl⟩ := h
      exact ⟨hne, rfl, rfl, Or.inr ⟨not_not.1 hsep, rfl, rfl⟩⟩

/-! ## The path buffer across a call -/

/-- The loop keeps every prefix of the buffer that ends before `endPtr`,
when the recursive call keeps it. -/
theorem enumLoop_keeps (S : Store σ) (recurse : Machine σ → Option (Outcome × Machine σ))
    (regKey : HKEY) (endPtr : Nat) (p : CStr) (hp : p.length ≤ endPtr)
    (hrec : ∀ m b m', recurse m = some (.returned b, m') → p <+: m.subKey → p <+: m'.subKey) :
    ∀ (f : Nat) (name : CStr) (m m' : Machine σ),
      enumLoop S recurse regKey endPtr f name m = some (.finished, m') →
      p <+: m.subKey → p <+: m'.subKey := by
  intro f
  induction f with
  | zero => intro name m m' h; simp [enumLoop] at h
  | succ f ih =>
    intro name m m' h hpre
    simp only [enumLoop] at h
    split at h
    · split at h
      · simp at h
      · rename_i path hcat
        have hpath : p <+: path := by
          simp only [strcat_s] at hcat
          split at hcat
          · simp only [Option.some.injEq] at hcat
            subst hcat
            exact ((List.prefix_take_iff).2 ⟨hpre, hp⟩).trans (List.prefix_append _ _)
          · simp at hcat
        split at h
        · simp at h
        · simp at h
        · rename_i m1 hr
          simp only [Option.some.injEq, Prod.mk.injEq, true_and] at h
          subst h
          exact hrec _ _ _ hr hpath
        · rename_i m1 hr
          have h1 : p <+: m1.subKey := hrec _ _ _ hr hpath
          split at h
          · exact ih _ _ _ h (by simpa using h1)
          · simp only [Option.some.injEq, Prod.mk.injEq, true_and] at h
            subst h
            simpa using h1
    · simp at h

/-- The first enumeration and the loop keep such a prefix as well. -/
theorem enumChildren_keeps (S : Store σ) (recurse : Machine σ → Option (Outcome × Machine σ))
    (regKey : HKEY) (endPtr : Nat) (p : CStr) (hp : p.length ≤ endPtr)
    (hrec : ∀ m b m', recurse m = some (.returned b, m') → p <+: m.subKey → p <+: m'.subKey)
    (f : Nat) (m m' : Machine σ)
    (h : enumChildren S recurse regKey endPtr f m = some (.finished, m'))
    (hpre : p <+: m.subKey) : p <+: m'.subKey := by
  simp only [enumChildren] at h
  split at h
  · exact enumLoop_keeps S recurse regKey endPtr p hp hrec f _ _ _ h (by simpa using hpre)
  · simp only [Option.some.injEq, Prod.mk.injEq, true_and] at h
    subst h
    simpa using hpre

/-- A prefix that does not end in a separator is shorter than a string that
does. -/
theorem length_lt_of_sep {p q : CStr} (hpq : p <+: q) (hp : p.getLast? ≠ some SEP)
    (hq : q.getLast? = some SEP) : p.length < q.length := by
  rcases Nat.lt_or_ge p.length q.length with h | h
  · exact h
  · have : p = q := hpq.eq_of_length (le_antisymm hpq.length_le h)
    exact absurd (this ▸ hq) hp

/-- The walk over an open key keeps every prefix of the buffer that does not
end in a separator, when the recursive call does. -/
theorem walkNode_keeps (S : Store σ) (rootKey : HKEY)
    (recurse : Machine σ → Option (Outcome × Machine σ)) (p : CStr)
    (hsep : p.getLast? ≠ some SEP)
    (hrec : ∀ m b m', recurse m = some (.returned b, m') → p <+: m.subKey → p <+: m'.subKey)
    (fuel : Nat) (regKey : HKEY) (m : Machine σ) (b : Bool) (m' : Machine σ)
    (h : walkNode S rootKey recurse fuel regKey m = some (.returned b, m'))
    (hpre : p <+: m.subKey) : p <+: m'.subKey := by
  simp only [walkNode] at h
  split at h
  · simp at h
  · rename_i endPtr m2 hsome
    obtain ⟨hne, -, -, hcase⟩ := appendSeparator_some hsome
    have hle : p.length ≤ endPtr - 1 ∧ p <+: m2.subKey := by
      rcases hcase with ⟨-, hk, he, -⟩ | ⟨hlast, hm, he⟩
      · rw [he, hk]
        exact ⟨by simpa using hpre.length_le, hpre.trans (List.prefix_append _ _)⟩
      · rw [he, hm]
        have := length_lt_of_sep hpre hsep hlast
        exact ⟨by omega, hpre⟩
    split at h
    · simp at h
    · simp at h
    · rename_i m3 hloop
      have h3 : p <+: m3.subKey :=
        enumChildren_keeps S recurse regKey endPtr p (by omega) hrec fuel m2 m3 hloop hle.2
      simp only [finishNode, Option.some.injEq, Prod.mk.injEq] at h
      obtain ⟨-, rfl⟩ := h
      simpa using (List.prefix_take_iff).2 ⟨h3, hle.1⟩

/-- An invocation that returns keeps every prefix of the buffer that does not
end in a separator. -/
theorem RegDelnodeRecurse_keeps (S : Store σ) (rootKey : HKEY) (p : CStr)
    (hsep : p.getLast? ≠ some SEP) :
    ∀ (fuel : Nat) (m : Machine σ) (b : Bool) (m' : Machine σ),
      RegDelnodeRecurse S rootKey fuel m = some (.returned b, m') →
      p <+: m.subKey → p <+: m'.subKey := by
  intro fuel
  induction fuel with
  | zero => intro m b m' h; simp [RegDelnodeRecurse] at h
  | succ fuel ih =>
    intro m b m' h hpre
    simp only [RegDelnodeRecurse] at h
    split at h
    · simp only [Option.some.injEq, Prod.mk.injEq] at h
      obtain ⟨-, rfl⟩ := h
      simpa using hpre
    · split at h
      · split at h <;>
        · simp only [Option.some.injEq, Prod.mk.injEq] at h
          obtain ⟨-, rfl⟩ := h
          simpa using hpre
      · exact walkNode_keeps S rootKey _ p hsep ih fuel _ _ b m' h (by simpa using hpre)

/-- The walk over an open key returns with the buffer as it was, when the path
does not end in a separator. -/
theorem walkNode_restores (S : Store σ) (rootKey : HKEY)
    (recurse : Machine σ → Option (Outcome × Machine σ))
    (fuel : Nat) (regKey : HKEY) (m : Machine σ) (b : Bool) (m' : Machine σ)
    (hsep : m.subKey.getLast? ≠ some SEP)
    (hrec : ∀ m1 b1 m1', recurse m1 = some (.returned b1, m1') →
      m.subKey <+: m1.subKey → m.subKey <+: m1'.subKey)
    (h : walkNode S rootKey recurse fuel regKey m = some (.returned b, m')) :
    m'.subKey = m.subKey := by
  simp only [walkNode] at h
  split at h
  · simp at h
  · rename_i endPtr m2 hsome
    obtain ⟨hne, -, -, hcase⟩ := appendSeparator_some hsome
    rcases hcase with ⟨-, hk, he, -⟩ | ⟨hlast, -, -⟩
    · split at h
      · simp at h
      · simp at h
      · rename_i m3 hloop
        have h3 : m.subKey <+: m3.subKey :=
          enumChildren_keeps S recurse regKey endPtr m.subKey (by omega) hrec fuel m2 m3 hloop
            (by rw [hk]; exact List.prefix_append _ _)
        simp only [finishNode, Option.some.injEq, Prod.mk.injEq] at h
        obtain ⟨-, rfl⟩ := h
        simp only [callDelete_subKey, callClose_subKey, he, Nat.add_sub_cancel]
        exact ((List.prefix_iff_eq_take).1 h3).symm
    · exact absurd hlast hsep

/-- The walk over an open key whose path ends in exactly one separator returns
with the buffer holding the path without that separator. -/
theorem walkNode_strips (S : Store σ) (rootKey : HKEY)
    (recurse : Machine σ → Option (Outcome × Machine σ))
    (fuel : Nat) (regKey : HKEY) (m : Machine σ) (b : Bool) (m' : Machine σ)
    (hlast : m.subKey.getLast? = some SEP)
    (hrec : ∀ m1 b1 m1', recurse m1 = some (.returned b1, m1') →
      m.subKey.dropLast <+: m1.subKey → m.subKey.dropLast <+: m1'.subKey)
    (h : walkNode S rootKey recurse fuel regKey m = some (.returned b, m')) :
    m'.subKey = m.subKey.dropLast := by
  simp only [walkNode] at h
  split at h
  · simp at h
  · rename_i endPtr m2 hsome
    obtain ⟨hne, -, -, hcase⟩ := appendSeparator_some hsome
    rcases hcase with ⟨hsep, -, -, -⟩ | ⟨-, hm, he⟩
    · exact absurd hlast hsep
    · split at h
      · simp at h
      · simp at h
      · rename_i m3 hloop
        have hlen : m.subKey.dropLast.length = endPtr - 1 := by
          rw [he, List.length_dropLast]
        have h3 : m.subKey.dropLast <+: m3.subKey :=
          enumChildren_keeps S recurse regKey endPtr m.subKey.dropLast (by omega) hrec fuel
            m2 m3 hloop (by rw [hm]; exact List.dropLast_prefix _)
        simp only [finishNode, Option.some.injEq, Prod.mk.injEq] at h
        obtain ⟨-, rfl⟩ := h
        simp only [callDelete_subKey, callClose_subKey, ← hlen]
        exact ((List.prefix_iff_eq_take).1 h3).symm

/-! ## The call log has the stated shape -/

/-- The loop writes a log of the shape `iter`, when the recursive call writes
one of the shape `node`. -/
theorem enumLoop_shape (S : Store σ) (rootKey : HKEY)
    (recurse : Machine σ → Option (Outcome × Machine σ)) (regKey : HKEY) (endPtr : Nat)
    (hrec : ∀ m o m', recurse m = some (o, m') →
      ∃ seg, m'.log = m.log ++ seg ∧ Shape rootKey (.node m.subKey o) seg) :
    ∀ (f : Nat) (name : CStr) (m : Machine σ) (x : LoopExit) (m' : Machine σ),
      enumLoop S recurse regKey endPtr f name m = some (x, m') →
      ∃ seg, m'.log = m.log ++ seg ∧ Shape rootKey (.iter regKey x) seg := by
  intro f
  induction f with
  | zero => intro name m x m' h; simp [enumLoop] at h
  | succ f ih =>
    intro name m x m' h
    simp only [enumLoop] at h
    split at h
    · split at h
      · simp only [Option.some.injEq, Prod.mk.injEq] at h
        obtain ⟨rfl, rfl⟩ := h
        exact ⟨[], by simp, Shape.composeAborted _ _⟩
      · rename_i path hcat
        split at h
        · simp at h
        · rename_i a m1 hr
          simp only [Option.some.injEq, Prod.mk.injEq] at h
          obtain ⟨rfl, rfl⟩ := h
          obtain ⟨seg, hlog, hsh⟩ := hrec _ _ _ hr
          exact ⟨seg, hlog, Shape.childAborted _ _ _ _ hsh⟩
        · rename_i m1 hr
          simp only [Option.some.injEq, Prod.mk.injEq] at h
          obtain ⟨rfl, rfl⟩ := h
          obtain ⟨seg, hlog, hsh⟩ := hrec _ _ _ hr
          exact ⟨seg, hlog, Shape.childFailed _ _ _ hsh⟩
        · rename_i m1 hr
          obtain ⟨seg, hlog, hsh⟩ := hrec _ _ _ hr
          simp only at hlog
          split at h
          · rename_i hst
            obtain ⟨it, hlog2, hit⟩ := ih _ _ _ _ h
            refine ⟨seg ++ Event.enumKey regKey 0 ERROR_SUCCESS (callEnum S regKey m1).2.1 :: it,
              ?_, Shape.childDeleted _ _ _ _ _ hsh (Shape.enumerated _ _ _ _ hit)⟩
            rw [hlog2, callEnum_log, hlog, hst]
            simp
          · rename_i hst
            simp only [Option.some.injEq, Prod.mk.injEq] at h
            obtain ⟨rfl, rfl⟩ := h
            refine ⟨seg ++ [Event.enumKey regKey 0 (callEnum S regKey m1).1 (callEnum S regKey m1).2.1],
              ?_, Shape.childDeleted _ _ _ _ _ hsh (Shape.enumFailed _ _ _ hst)⟩
            rw [callEnum_log, hlog]
            simp
    · simp only [Option.some.injEq, Prod.mk.injEq] at h
      obtain ⟨rfl, rfl⟩ := h
      exact ⟨[], by simp, Shape.composeAborted _ _⟩

/-- The first enumeration and the loop write a log of the shape `kids`. -/
theorem enumChildren_shape (S : Store σ) (rootKey : HKEY)
    (recurse : Machine σ → Option (Outcome × Machine σ)) (regKey : HKEY) (endPtr : Nat)
    (hrec : ∀ m o m', recurse m = some (o, m') →
      ∃ seg, m'.log = m.log ++ seg ∧ Shape rootKey (.node m.subKey o) seg)
    (f : Nat) (m : Machine σ) (x : LoopExit) (m' : Machine σ)
    (h : enumChildren S recurse regKey endPtr f m = some (x, m')) :
    ∃ seg, m'.log = m.log ++ seg ∧ Shape rootKey (.kids regKey x) seg := by
  simp only [enumChildren] at h
  split at h
  · rename_i hst
    obtain ⟨it, hlog, hit⟩ := enumLoop_shape S rootKey recurse regKey endPtr hrec f _ _ _ _ h
    refine ⟨Event.enumKey regKey 0 ERROR_SUCCESS (callEnum S regKey m).2.1 :: it, ?_,
      Shape.enumerated _ _ _ _ hit⟩
    rw [hlog, callEnum_log, hst]
    simp
  · rename_i hst
    simp only [Option.some.injEq, Prod.mk.injEq] at h
    obtain ⟨rfl, rfl⟩ := h
    exact ⟨_, callEnum_log S regKey m, Shape.enumFailed _ _ _ hst⟩

/-- The walk over an open key completes the log of its invocation. -/
theorem walkNode_shape (S : Store σ) (rootKey : HKEY)
    (recurse : Machine σ → Option (Outcome × Machine σ))
    (hrec : ∀ m o m', recurse m = some (o, m') →
      ∃ seg, m'.log = m.log ++ seg ∧ Shape rootKey (.node m.subKey o) seg)
    (hkeep : ∀ p : CStr, p.getLast? ≠ some SEP → ∀ m b m',
      recurse m = some (.returned b, m') → p <+: m.subKey → p <+: m'.subKey)
    (fuel : Nat) (regKey : HKEY) (m : Machine σ) (o : Outcome) (m' : Machine σ)
    (h : walkNode S rootKey recurse fuel regKey m = some (o, m'))
    (st : LSTATUS) (hst : st ≠ ERROR_SUCCESS) :
    ∃ seg, m'.log = m.log ++ seg ∧
      Shape rootKey (.node m.subKey o)
        (.enter m.subKey :: .deleteKey rootKey m.subKey st ::
          .openKey rootKey m.subKey ERROR_SUCCESS regKey :: seg) := by
  have hwalk := h
  simp only [walkNode] at h
  split at h
  · simp only [Option.some.injEq, Prod.mk.injEq] at h
    obtain ⟨rfl, rfl⟩ := h
    exact ⟨[], by simp, Shape.separatorOut _ _ _ hst⟩
  · rename_i endPtr m2 hsome
    obtain ⟨hne, -, hlog2, -⟩ := appendSeparator_some hsome
    split at h
    · simp at h
    · rename_i a m3 hloop
      simp only [Option.some.injEq, Prod.mk.injEq] at h
      obtain ⟨rfl, rfl⟩ := h
      obtain ⟨ks, hlog, hks⟩ := enumChildren_shape S rootKey recurse regKey endPtr hrec fuel _ _ _ hloop
      exact ⟨ks, by rw [hlog, hlog2], Shape.walkAborted _ _ _ _ _ hst hks⟩
    · rename_i m3 hloop
      obtain ⟨ks, hlog, hks⟩ := enumChildren_shape S rootKey recurse regKey endPtr hrec fuel _ _ _ hloop
      simp only [finishNode, Option.some.injEq, Prod.mk.injEq] at h
      obtain ⟨rfl, rfl⟩ := h
      refine ⟨ks ++ [.closeKey regKey, .deleteKey rootKey (m3.subKey.take (endPtr - 1)) _, .leave m.subKey _],
        ?_, Shape.walked _ _ _ _ _ _ hst hks ?_⟩
      · simp [hlog, hlog2]
      · constructor
        · intro hsep
          have := walkNode_restores S rootKey recurse fuel regKey m _ _ hsep
            (hkeep m.subKey hsep) hwalk
          simpa [finishNode] using this
        · intro hlast hsep
          have := walkNode_strips S rootKey recurse fuel regKey m _ _ hlast
            (hkeep m.subKey.dropLast hsep) hwalk
          simpa [finishNode] using this

/-- Every invocation writes a log of the shape `node`. -/
theorem RegDelnodeRecurse_shape (S : Store σ) (rootKey : HKEY) :
    ∀ (fuel : Nat) (m : Machine σ) (o : Outcome) (m' : Machine σ),
      RegDelnodeRecurse S rootKey fuel m = some (o, m') →
      ∃ seg, m'.log = m.log ++ seg ∧ Shape rootKey (.node m.subKey o) seg := by
  intro fuel
  induction fuel with
  | zero => intro m o m' h; simp [RegDelnodeRecurse] at h
  | succ fuel ih =>
    intro m o m' h
    simp only [RegDelnodeRecurse] at h
    split at h
    · rename_i hd
      simp only [Option.some.injEq, Prod.mk.injEq] at h
      obtain ⟨rfl, rfl⟩ := h
      refine ⟨_, ?_, Shape.direct m.subKey⟩
      simp [hd]
    · rename_i hd
      split at h
      · rename_i ho
        split at h
        · rename_i hnf
          simp only [Option.some.injEq, Prod.mk.injEq] at h
          obtain ⟨rfl, rfl⟩ := h
          have := @Shape.notOpened rootKey m.subKey _ _
            (callOpen S rootKey (callDelete S rootKey
              { m with log := m.log ++ [Event.enter m.subKey] }).2).2.1 hd ho
          simp only [hnf, decide_True] at this
          refine ⟨_, ?_, this⟩
          simp [hnf]
        · rename_i hnf
          simp only [Option.some.injEq, Prod.mk.injEq] at h
          obtain ⟨rfl, rfl⟩ := h
          have := @Shape.notOpened rootKey m.subKey _ _
            (callOpen S rootKey (callDelete S rootKey
              { m with log := m.log ++ [Event.enter m.subKey] }).2).2.1 hd ho
          simp only [hnf, decide_False] at this
          refine ⟨_, ?_, this⟩
          simp
      · rename_i ho
        obtain ⟨seg, hlog, hsh⟩ := walkNode_shape S rootKey _ ih
          (fun p hp => RegDelnodeRecurse_keeps S rootKey p hp fuel) fuel _ _ _ _ h _ hd
        simp only [callOpen_subKey, callDelete_subKey, callOpen_log, callDelete_log] at hlog hsh
        rw [not_not.1 ho] at hlog
        exact ⟨_, by rw [hlog]; simp, hsh⟩

/-! ## Reading the log -/

theorem Phase.run_append (rootKey : HKEY) (q : Phase) (a b : List Event) :
    Phase.run rootKey q (a ++ b)
      = (Phase.run rootKey q a).bind (fun q2 => Phase.run rootKey q2 b) := by
  induction a generalizing q with
  | nil => simp [Phase.run]
  | cons e es ih =>
    simp only [List.cons_append, Phase.run]
    cases Phase.step rootKey q e with
    | none => simp
    | some q2 => simp [ih]

theorem Phase.step_idle_enter (r : HKEY) (p : CStr) :
    Phase.step r .idle (.enter p) = some .idle := rfl
theorem Phase.step_idle_delete (r r2 : HKEY) (p : CStr) (st : LSTATUS) :
    Phase.step r .idle (.deleteKey r2 p st) = some .idle := rfl
theorem Phase.step_idle_open (r r2 : HKEY) (p : CStr) (st : LSTATUS) (h : HKEY) :
    Phase.step r .idle (.openKey r2 p st h) = some .idle := rfl
theorem Phase.step_closed_delete (r : HKEY) (p : CStr) (st : LSTATUS) :
    Phase.step r .closed (.deleteKey r p st) = some (.deleted p st) := by
  simp [Phase.step]
theorem Phase.step_deleted_leave (r : HKEY) (p q : CStr) (st : LSTATUS) (b : Bool) :
    Phase.step r (.deleted p st) (.leave q b) = Phase.afterLeave p st q b := rfl

/-- Every stretch of the log is accepted by the reader and leaves it in a
phase that fits the way the stretch ended. -/
theorem Shape.run_phase {rootKey : HKEY} {mode : Mode} {seg : List Event}
    (h : Shape rootKey mode seg) :
    ∃ q, Phase.run rootKey .idle seg = some q ∧ mode.ends q := by
  induction h with
  | direct p => exact ⟨.idle, by simp [Phase.run, Phase.step], by simp [Mode.ends]⟩
  | notOpened p st st2 h hst hst2 =>
    by_cases hnf : st2 = ERROR_FILE_NOT_FOUND
    · exact ⟨.idle, by simp [Phase.run, Phase.step, hnf], by simp [Mode.ends, hnf]⟩
    · exact ⟨.failed, by simp [Phase.run, Phase.step, hnf], by simp [Mode.ends, hnf]⟩
  | separatorOut p st h hst => exact ⟨.idle, by simp [Phase.run, Phase.step], by simp [Mode.ends]⟩
  | walkAborted p st h a ks hst _ ih =>
    obtain ⟨q, hq, he⟩ := ih
    exact ⟨q, by simpa [Phase.run, Phase.step] using hq, by simpa [Mode.ends] using he⟩
  | walked p st h ks p2 st2 hst _ hpin ih =>
    obtain ⟨q, hq, he⟩ := ih
    have hclose : Phase.step rootKey q (.closeKey h) = some .closed := by
      rcases he with rfl | rfl
      · rfl
      · simp [Phase.step]
    by_cases hok : st2 = ERROR_SUCCESS
    · refine ⟨.idle, ?_, by simp [Mode.ends, hok]⟩
      simp only [Phase.run, Phase.step_idle_enter, Phase.step_idle_delete, Phase.step_idle_open,
        Option.some_bind, Phase.run_append, hq, hclose, Phase.step_closed_delete,
        Phase.step_deleted_leave]
      rw [Phase.afterLeave, if_pos ⟨by simp [hok], hpin⟩]
      simp [hok]
    · refine ⟨.failed, ?_, by simp [Mode.ends, hok]⟩
      simp only [Phase.run, Phase.step_idle_enter, Phase.step_idle_delete, Phase.step_idle_open,
        Option.some_bind, Phase.run_append, hq, hclose, Phase.step_closed_delete,
        Phase.step_deleted_leave]
      rw [Phase.afterLeave, if_pos ⟨by simp [hok], hpin⟩]
      simp [hok]
  | enumFailed h st name hst =>
    exact ⟨.enumFailed h, by simp [Phase.run, Phase.step, hst], by simp [Mode.ends]⟩
  | enumerated h name x it _ ih =>
    obtain ⟨q, hq, he⟩ := ih
    refine ⟨q, by simpa [Phase.run, Phase.step] using hq, ?_⟩
    cases x <;> simpa [Mode.ends] using he
  | childFailed h p seg _ ih =>
    obtain ⟨q, hq, he⟩ := ih
    exact ⟨q, hq, Or.inl (by simpa [Mode.ends] using he)⟩
  | childAborted h p a seg _ ih =>
    obtain ⟨q, hq, he⟩ := ih
    exact ⟨q, hq, by simpa [Mode.ends] using he⟩
  | composeAborted h a => exact ⟨.idle, rfl, by simp [Mode.ends]⟩
  | childDeleted h p x seg ks _ _ ih1 ih2 =>
    obtain ⟨q1, hq1, he1⟩ := ih1
    obtain ⟨q2, hq2, he2⟩ := ih2
    have : q1 = .idle := by simpa [Mode.ends] using he1
    subst this
    refine ⟨q2, by simp [Phase.run_append, hq1, hq2], ?_⟩
    cases x <;> simpa [Mode.ends] using he2

/-- In an accepted log that does not end in the middle of the three closing
events, a failure is followed by exactly these events, unless it is the last
entry, which only the return of `FALSE` can be. -/
theorem Phase.after_failure (rootKey : HKEY) :
    ∀ (pre : List Event) (q : Phase) (e : Event) (post : List Event) (qf : Phase),
      Phase.run rootKey q (pre ++ e :: post) = some qf → (qf = .idle ∨ qf = .failed) →
      e.isFailure = true →
      (post = [] ∧ ∃ c, e = .leave c false) ∨
      ∃ h p st p0 rest,
        post = .closeKey h :: .deleteKey rootKey p st ::
          .leave p0 (decide (st = ERROR_SUCCESS)) :: rest ∧
        OwnPath p0 p ∧
        (∀ h2 i st2 name, e = .enumKey h2 i st2 name → h = h2) := by
  intro pre
  induction pre with
  | cons e0 pre ih =>
    intro q e post qf hrun hqf he
    simp only [List.cons_append, Phase.run] at hrun
    cases hstep : Phase.step rootKey q e0 with
    | none => simp [hstep] at hrun
    | some q2 =>
      rw [hstep] at hrun
      exact ih q2 e post qf hrun hqf he
  | nil =>
    intro q e post qf hrun hqf he
    simp only [List.nil_append, Phase.run] at hrun
    cases hstep : Phase.step rootKey q e with
    | none => simp [hstep] at hrun
    | some q2 =>
      rw [hstep] at hrun
      simp only [Option.some_bind] at hrun
      have hq2 : (q2 = .failed ∧ ∃ c, e = .leave c false) ∨
          ∃ h2 i st2 name, q2 = .enumFailed h2 ∧ e = .enumKey h2 i st2 name := by
        cases e with
        | leave c b =>
          cases b with
          | true => simp [Event.isFailure] at he
          | false =>
            refine Or.inl ⟨?_, c, rfl⟩
            cases q with
            | idle => simpa [Phase.step] using hstep.symm
            | deleted p st =>
              simp only [Phase.step, Phase.afterLeave] at hstep
              split at hstep
              · simpa using hstep.symm
              · simp at hstep
            | _ => simp [Phase.step] at hstep
        | enumKey h i st name =>
          have hst : st ≠ ERROR_SUCCESS := by simpa [Event.isFailure] using he
          refine Or.inr ⟨h, i, st, name, ?_, rfl⟩
          cases q with
          | idle => simpa [Phase.step, hst] using hstep.symm
          | _ => simp [Phase.step] at hstep
        | _ => simp [Event.isFailure] at he
      have hclosed : ∀ post2 : List Event, Phase.run rootKey .closed post2 = some qf →
          ∃ p st p0 rest, post2 = .deleteKey rootKey p st ::
              .leave p0 (decide (st = ERROR_SUCCESS)) :: rest ∧
            OwnPath p0 p := by
        intro post2 h2
        cases post2 with
        | nil =>
          simp only [Phase.run, Option.some.injEq] at h2
          rcases hqf with h | h <;> simp [h] at h2
        | cons e2 post3 =>
          cases e2 with
          | deleteKey r p st =>
            by_cases hr : r = rootKey
            · subst hr
              simp only [Phase.run, Phase.step_closed_delete, Option.some_bind] at h2
              cases post3 with
              | nil =>
                simp only [Phase.run, Option.some.injEq] at h2
                rcases hqf with h | h <;> simp [h] at h2
              | cons e3 rest =>
                cases e3 with
                | leave p0 b =>
                  simp only [Phase.run, Phase.step_deleted_leave, Phase.afterLeave] at h2
                  split at h2
                  · rename_i hc
                    exact ⟨p, st, p0, rest, by rw [hc.1], hc.2⟩
                  · simp at h2
                | _ => simp [Phase.run, Phase.step] at h2
            · simp [Phase.run, Phase.step, hr] at h2
          | _ => simp [Phase.run, Phase.step] at h2
      cases post with
      | nil =>
        simp only [Phase.run, Option.some.injEq] at hrun
        rcases hq2 with ⟨-, hc⟩ | ⟨h2, i, st2, name, h, -⟩
        · exact Or.inl ⟨rfl, hc⟩
        · rcases hqf with h3 | h3 <;> simp [h, h3] at hrun
      | cons e1 post1 =>
        refine Or.inr ?_
        cases e1 with
        | closeKey h =>
          rcases hq2 with ⟨hf, c, hc⟩ | ⟨h2, i, st2, name, hf, hc⟩
          · have h1 : Phase.run rootKey .closed post1 = some qf := by
              simpa [hf, Phase.run, Phase.step] using hrun
            obtain ⟨p, st, p0, rest, hpost, hpin⟩ := hclosed post1 h1
            refine ⟨h, p, st, p0, rest, by rw [hpost], hpin, ?_⟩
            intro h3 i3 st3 name3 he3
            rw [hc] at he3
            cases he3
          · by_cases hh : h = h2
            · have h1 : Phase.run rootKey .closed post1 = some qf := by
                simpa [hf, Phase.run, Phase.step, hh] using hrun
              obtain ⟨p, st, p0, rest, hpost, hpin⟩ := hclosed post1 h1
              refine ⟨h, p, st, p0, rest, by rw [hpost], hpin, ?_⟩
              intro h3 i3 st3 name3 he3
              rw [hc] at he3
              cases he3
              exact hh
            · simp [hf, Phase.run, Phase.step, hh] at hrun
        | _ =>
          rcases hq2 with ⟨hf, -⟩ | ⟨h2, i, st2, name, hf, -⟩ <;>
            simp [hf, Phase.run, Phase.step] at hrun

theorem scopeRun_append (stk : List Slot) (a b : List Event) :
    scopeRun stk (a ++ b) = (scopeRun stk a).bind (fun stk2 => scopeRun stk2 b) := by
  induction a generalizing stk with
  | nil => simp [scopeRun]
  | cons e es ih =>
    simp only [List.cons_append, scopeRun]
    cases scopeStep stk e with
    | none => simp
    | some stk2 => simp [ih]

/-- A stretch of the log that is not cut short leaves the scope stack as it
found it. -/
theorem Shape.scoped {rootKey : HKEY} {mode : Mode} {seg : List Event}
    (h : Shape rootKey mode seg) :
    mode.completes → ∀ stk, scopeRun stk seg = some stk := by
  induction h with
  | direct p => intro _ stk; simp [scopeRun, scopeStep]
  | notOpened p st st2 h hst hst2 => intro _ stk; simp [scopeRun, scopeStep, hst2]
  | separatorOut p st h hst => intro hc; simp [Mode.completes] at hc
  | walkAborted p st h a ks hst _ ih => intro hc; simp [Mode.completes] at hc
  | walked p st h ks p2 st2 hst _ hpin ih =>
    intro _ stk
    simp [scopeRun, scopeStep, scopeRun_append, ih (by simp [Mode.completes])]
  | enumFailed h st name hst => intro _ stk; simp [scopeRun, scopeStep]
  | enumerated h name x it _ ih =>
    intro hc stk
    cases x with
    | finished => simp [scopeRun, scopeStep, ih (by simp [Mode.completes])]
    | aborted a => simp [Mode.completes] at hc
  | childFailed h p seg _ ih => intro _ stk; exact ih (by simp [Mode.completes]) stk
  | childAborted h p a seg _ ih => intro hc; simp [Mode.completes] at hc
  | composeAborted h a => intro hc; simp [Mode.completes] at hc
  | childDeleted h p x seg ks _ _ ih1 ih2 =>
    intro hc stk
    cases x with
    | finished =>
      simp [scopeRun_append, ih1 (by simp [Mode.completes]), ih2 (by simp [Mode.completes])]
    | aborted a => simp [Mode.completes] at hc

/-! ## The top-level call -/

/-- The log of `DeleteRegistryPath`: empty when the path does not fit the
buffer, the log of one invocation otherwise. -/
theorem DeleteRegistryPath_log (S : Store σ) (fuel : Nat) (hKeyRoot : HKEY) (s : σ)
    (subKey : CStr) (o : Outcome) (m' : Machine σ)
    (h : DeleteRegistryPath S fuel hKeyRoot s subKey = some (o, m')) :
    (o = .aborted .fatal ∧ m'.log = []) ∨ Shape hKeyRoot (.node subKey o) m'.log := by
  simp only [DeleteRegistryPath, strcpy_s] at h
  split at h
  · rename_i hcpy
    simp only [Option.some.injEq, Prod.mk.injEq] at h
    obtain ⟨rfl, rfl⟩ := h
    exact Or.inl ⟨rfl, rfl⟩
  · rename_i buf hcpy
    split at hcpy
    · simp only [Option.some.injEq] at hcpy
      subst hcpy
      obtain ⟨seg, hlog, hsh⟩ := RegDelnodeRecurse_shape S hKeyRoot fuel _ _ _ h
      simp only [List.nil_append] at hlog
      rw [hlog]
      exact Or.inr hsh
    · simp at hcpy

/-- The reader accepts the log of `DeleteRegistryPath` and is not left in the
middle of the three closing events. -/
theorem DeleteRegistryPath_phase (S : Store σ) (fuel : Nat) (hKeyRoot : HKEY) (s : σ)
    (subKey : CStr) (o : Outcome) (m' : Machine σ)
    (h : DeleteRegistryPath S fuel hKeyRoot s subKey = some (o, m')) :
    ∃ qf, Phase.run hKeyRoot .idle m'.log = some qf ∧ (qf = .idle ∨ qf = .failed) := by
  rcases DeleteRegistryPath_log S fuel hKeyRoot s subKey o m' h with ⟨-, hlog⟩ | hsh
  · exact ⟨.idle, by rw [hlog]; rfl, Or.inl rfl⟩
  · obtain ⟨q, hq, he⟩ := hsh.run_phase
    refine ⟨q, hq, ?_⟩
    cases o with
    | returned b => cases b <;> simp [Mode.ends] at he <;> simp [he]
    | aborted a => simp [Mode.ends] at he; simp [he]

/-! ## C3, C6, C7: what follows a failure -/

/-- C3 (as amended): for every store, in every run of `DeleteRegistryPath`,
when an invocation returns `FALSE` to an enclosing invocation (its return is
not the last entry of the log), the enclosing invocation closes its handle,
then does retry the delete (on its own path `p0`, when that does not end in a
separator) and returns the result of that retry: `FALSE` exactly when the
retry fails. -/
theorem child_failure_then_retry (S : Store σ) (fuel : Nat) (hKeyRoot : HKEY) (s : σ)
    (subKey : CStr) (o : Outcome) (m' : Machine σ)
    (h : DeleteRegistryPath S fuel hKeyRoot s subKey = some (o, m'))
    (pre post : List Event) (c : CStr)
    (hlog : m'.log = pre ++ Event.leave c false :: post) (hpost : post ≠ []) :
    ∃ regKey p st p0 rest,
      post = .closeKey regKey :: .deleteKey hKeyRoot p st ::
        .leave p0 (decide (st = ERROR_SUCCESS)) :: rest ∧
      (p0.getLast? ≠ some SEP → p = p0) := by
  obtain ⟨qf, hrun, hqf⟩ := DeleteRegistryPath_phase S fuel hKeyRoot s subKey o m' h
  rw [hlog] at hrun
  rcases Phase.after_failure hKeyRoot pre .idle _ post qf hrun hqf rfl with
    ⟨hnil, -⟩ | ⟨regKey, p, st, p0, rest, hp, hpin, -⟩
  · exact absurd hnil hpost
  · exact ⟨regKey, p, st, p0, rest, hp, hpin.1⟩

/-- C3, witness: the child `B` of `A` cannot be deleted; the second delete of
`A` follows and its result is returned. -/
theorem child_failure_then_retry_witness :
    ∃ regKey p st p0 rest,
      [Event.closeKey 1, .deleteKey 0 pathA ERROR_ACCESS_DENIED, .leave pathA false]
        = .closeKey regKey :: .deleteKey 0 p st ::
          .leave p0 (decide (st = ERROR_SUCCESS)) :: rest ∧
      (p0.getLast? ≠ some SEP → p = p0) :=
  child_failure_then_retry scripted 2 0 childDenied pathA (.returned false)
    { store := usedUp, subKey := pathA, log := childDeniedLog } (by decide)
    [.enter pathA, .deleteKey 0 pathA ERROR_ACCESS_DENIED, .openKey 0 pathA ERROR_SUCCESS 1,
     .enumKey 1 0 ERROR_SUCCESS ['B'],
     .enter pathAB, .deleteKey 0 pathAB ERROR_ACCESS_DENIED,
     .openKey 0 pathAB ERROR_ACCESS_DENIED 0]
    _ pathAB (by decide) (by decide)

/-- C3, counterexample to the claim as stated: the child `B` has returned
`FALSE`, and after that the delete of the parent path `A` is issued again;
when the store accepts it, the parent returns `TRUE`. -/
theorem child_failure_no_retry_counterexample :
    ∃ m' pre post,
      DeleteRegistryPath scripted 2 0 childDeniedThenDeleted pathA = some (.returned true, m') ∧
      m'.log = pre ++ Event.leave pathAB false :: post ∧
      Event.deleteKey 0 pathA ERROR_SUCCESS ∈ post :=
  ⟨{ store := usedUp, subKey := pathA,
     log := [.enter pathA, .deleteKey 0 pathA ERROR_ACCESS_DENIED,
             .openKey 0 pathA ERROR_SUCCESS 1, .enumKey 1 0 ERROR_SUCCESS ['B'],
             .enter pathAB, .deleteKey 0 pathAB ERROR_ACCESS_DENIED,
             .openKey 0 pathAB ERROR_ACCESS_DENIED 0, .leave pathAB false,
             .closeKey 1, .deleteKey 0 pathA ERROR_SUCCESS, .leave pathA true] },
   [.enter pathA, .deleteKey 0 pathA ERROR_ACCESS_DENIED, .openKey 0 pathA ERROR_SUCCESS 1,
    .enumKey 1 0 ERROR_SUCCESS ['B'],
    .enter pathAB, .deleteKey 0 pathAB ERROR_ACCESS_DENIED,
    .openKey 0 pathAB ERROR_ACCESS_DENIED 0],
   [.closeKey 1, .deleteKey 0 pathA ERROR_SUCCESS, .leave pathA true],
   by decide, by decide, by decide⟩

/-- C6 (as amended): for every store, in every run of `DeleteRegistryPath`,
when an enumeration on an open key fails, with `ERROR_NO_MORE_ITEMS` or with
any other status (the code does not tell them apart), the invocation that
opened the key closes that handle, retries the delete (on its own path `p0`,
when that does not end in a separator) and returns the result of that retry:
`FALSE` exactly when the retry fails. -/
theorem enum_failure_then_retry (S : Store σ) (fuel : Nat) (hKeyRoot : HKEY) (s : σ)
    (subKey : CStr) (o : Outcome) (m' : Machine σ)
    (h : DeleteRegistryPath S fuel hKeyRoot s subKey = some (o, m'))
    (pre post : List Event) (regKey : HKEY) (index : Nat) (st : LSTATUS) (name : CStr)
    (hlog : m'.log = pre ++ Event.enumKey regKey index st name :: post)
    (hst : st ≠ ERROR_SUCCESS) :
    ∃ p st2 p0 rest,
      post = .closeKey regKey :: .deleteKey hKeyRoot p st2 ::
        .leave p0 (decide (st2 = ERROR_SUCCESS)) :: rest ∧
      (p0.getLast? ≠ some SEP → p = p0) := by
  obtain ⟨qf, hrun, hqf⟩ := DeleteRegistryPath_phase S fuel hKeyRoot s subKey o m' h
  rw [hlog] at hrun
  rcases Phase.after_failure hKeyRoot pre .idle _ post qf hrun hqf
      (by simp [Event.isFailure, hst]) with
    ⟨-, c, hc⟩ | ⟨h2, p, st2, p0, rest, hp, hpin, hh⟩
  · cases hc
  · obtain rfl := hh regKey index st name rfl
    exact ⟨p, st2, p0, rest, hp, hpin.1⟩

/-- C6, witness: the enumeration on `A` fails with `ERROR_ACCESS_DENIED`. -/
theorem enum_failure_then_retry_witness :
    ∃ p st2 p0 rest,
      [Event.closeKey 1, .deleteKey 0 pathA ERROR_SUCCESS, .leave pathA true]
        = .closeKey 1 :: .deleteKey 0 p st2 ::
          .leave p0 (decide (st2 = ERROR_SUCCESS)) :: rest ∧
      (p0.getLast? ≠ some SEP → p = p0) :=
  enum_failure_then_retry scripted 1 0 enumDenied pathA (.returned true)
    { store := usedUp, subKey := pathA, log := enumDeniedLog } (by decide)
    [.enter pathA, .deleteKey 0 pathA ERROR_ACCESS_DENIED, .openKey 0 pathA ERROR_SUCCESS 1]
    _ 1 0 ERROR_ACCESS_DENIED [] (by decide) (by decide)

/-- C6, counterexample to the claim as stated: the enumeration on `A` fails
with `ERROR_ACCESS_DENIED`, which is not `ERROR_NO_MORE_ITEMS`, and the
invocation that opened `A` returns `TRUE`, because the store accepts the
second delete. -/
theorem enum_failure_returns_true_counterexample :
    DeleteRegistryPath scripted 1 0 enumDenied pathA
      = some (.returned true, { store := usedUp, subKey := pathA, log := enumDeniedLog }) ∧
    Event.enumKey 1 0 ERROR_ACCESS_DENIED [] ∈ enumDeniedLog ∧
    ERROR_ACCESS_DENIED ≠ ERROR_NO_MORE_ITEMS := by
  decide

/-- C8: for every store, when `DeleteRegistryPath` returns, its log passes the
scope check from the empty stack to the empty stack: every successful open is
followed by the close of that same handle, after the events of the
invocations nested in it and before the return of the invocation that opened
it, however its loop ended; no close comes without its open; no handle is
open at the end. -/
theorem handles_closed_in_scope (S : Store σ) (fuel : Nat) (hKeyRoot : HKEY) (s : σ)
    (subKey : CStr) (b : Bool) (m' : Machine σ)
    (h : DeleteRegistryPath S fuel hKeyRoot s subKey = some (.returned b, m')) :
    scopeRun [] m'.log = some [] := by
  rcases DeleteRegistryPath_log S fuel hKeyRoot s subKey _ m' h with ⟨ho, -⟩ | hsh
  · cases ho
  · exact hsh.scoped (by simp [Mode.completes]) []

/-- C8, witness: the run on `A` whose child `B` fails. -/
theorem handles_closed_in_scope_witness : scopeRun [] childDeniedLog = some [] :=
  handles_closed_in_scope scripted 2 0 childDenied pathA false
    { store := usedUp, subKey := pathA, log := childDeniedLog } (by decide)

/-! ## C5: the buffer on return -/

/-- C5 (as amended): for every store, every amount of fuel and every machine
state, when an invocation of `RegDelnodeRecurse` returns, the buffer holds
exactly the string it held on entry, provided that string does not end in a
separator, or the invocation returned by the direct delete, or by the failed
open.  (An invocation that walks a key whose path ends in a separator returns
with that separator removed.) -/
theorem buffer_restored (S : Store σ) (rootKey : HKEY) (fuel : Nat) (m : Machine σ)
    (b : Bool) (m' : Machine σ)
    (h : RegDelnodeRecurse S rootKey fuel m = some (.returned b, m'))
    (hcase : m.subKey.getLast? ≠ some SEP ∨
      (S.RegDeleteKeyA m.store rootKey m.subKey).1 = ERROR_SUCCESS ∨
      (S.RegOpenKeyExA (S.RegDeleteKeyA m.store rootKey m.subKey).2 rootKey m.subKey).1
        ≠ ERROR_SUCCESS) :
    m'.subKey = m.subKey := by
  cases fuel with
  | zero => simp [RegDelnodeRecurse] at h
  | succ fuel =>
    simp only [RegDelnodeRecurse] at h
    split at h
    · simp only [Option.some.injEq, Prod.mk.injEq] at h
      obtain ⟨-, rfl⟩ := h
      rfl
    · rename_i hd
      split at h
      · split at h <;>
        · simp only [Option.some.injEq, Prod.mk.injEq] at h
          obtain ⟨-, rfl⟩ := h
          rfl
      · rename_i ho
        rcases hcase with hsep | hd2 | ho2
        · exact walkNode_restores S rootKey _ fuel _
            (callOpen S rootKey (callDelete S rootKey
              { m with log := m.log ++ [Event.enter m.subKey] }).2).2.2 b m' hsep
            (RegDelnodeRecurse_keeps S rootKey m.subKey hsep fuel) h
        · exact absurd hd2 hd
        · exact absurd ho2 (by simpa [callOpen, callDelete] using ho)

/-- C5, witness: the invocation on `A` whose child `B` fails returns with `A`
in the buffer. -/
theorem buffer_restored_witness :
    ({ store := usedUp, subKey := pathA, log := childDeniedLog } : Machine Script).subKey
      = pathA :=
  buffer_restored scripted 0 2 { store := childDenied, subKey := pathA, log := [] } false
    { store := usedUp, subKey := pathA, log := childDeniedLog } (by decide)
    (Or.inl (by decide))

/-- C5, counterexample to the claim as stated (for every path held in the
buffer on entry): entered with `A` and a trailing separator, on a key without
children, the invocation returns with `A` in the buffer. -/
theorem buffer_not_restored_counterexample :
    RegDelnodeRecurse scripted 0 1 { store := emptyKey, subKey := pathA ++ [SEP], log := [] }
      = some (.returned true,
          { store := usedUp, subKey := pathA,
            log := [.enter (pathA ++ [SEP]), .deleteKey 0 (pathA ++ [SEP]) ERROR_ACCESS_DENIED,
                    .openKey 0 (pathA ++ [SEP]) ERROR_SUCCESS 1,
                    .enumKey 1 0 ERROR_NO_MORE_ITEMS [], .closeKey 1,
                    .deleteKey 0 pathA ERROR_SUCCESS, .leave (pathA ++ [SEP]) true] }) ∧
    pathA ≠ pathA ++ [SEP] := by
  decide

/-! ## C4: the capacity of the buffer -/

/-- The separator is appended without a check: when the path fills the buffer
up to its terminator and does not end in a separator, the direct delete fails
and the key opens, the terminator behind the separator is stored at index
`SUBKEY_BUFFER_SIZE`, outside the buffer. -/
theorem separator_unchecked (S : Store σ) (fuel : Nat) (hKeyRoot : HKEY) (s : σ)
    (subKey : CStr) (hlen : subKey.length + 1 = SUBKEY_BUFFER_SIZE)
    (hsep : subKey.getLast? ≠ some SEP)
    (hdel : (S.RegDeleteKeyA s hKeyRoot subKey).1 ≠ ERROR_SUCCESS)
    (hopen : (S.RegOpenKeyExA (S.RegDeleteKeyA s hKeyRoot subKey).2 hKeyRoot subKey).1
      = ERROR_SUCCESS) :
    DeleteRegistryPath S (fuel + 1) hKeyRoot s subKey
      = some (.aborted .outOfBounds,
          { store := (S.RegOpenKeyExA (S.RegDeleteKeyA s hKeyRoot subKey).2 hKeyRoot subKey).2.2,
            subKey := subKey,
            log := [.enter subKey,
                    .deleteKey hKeyRoot subKey (S.RegDeleteKeyA s hKeyRoot subKey).1,
                    .openKey hKeyRoot subKey ERROR_SUCCESS
                      (S.RegOpenKeyExA (S.RegDeleteKeyA s hKeyRoot subKey).2
                        hKeyRoot subKey).2.1] }) := by
  have hfit : subKey.length < SUBKEY_BUFFER_SIZE := by omega
  have hne : subKey.length ≠ 0 := by
    intro h0
    rw [h0] at hlen
    simp [SUBKEY_BUFFER_SIZE] at hlen
  have hno : ¬ (subKey.length + 1 < SUBKEY_BUFFER_SIZE) := by omega
  simp [DeleteRegistryPath, strcpy_s, hfit, RegDelnodeRecurse, callDelete, callOpen, hdel,
    hopen, walkNode, appendSeparator, hne, hsep, hno]

/-- C4, the failing input: a path of 2047 characters `a`, on a key that cannot
be deleted directly and opens.  The run ends in an access outside the buffer,
not in the fatal path. -/
theorem separator_written_out_of_bounds :
    DeleteRegistryPath scripted 1 0 openedKey (List.replicate 2047 'a')
      = some (.aborted .outOfBounds,
          { store := usedUp, subKey := List.replicate 2047 'a',
            log := [.enter (List.replicate 2047 'a'),
                    .deleteKey 0 (List.replicate 2047 'a') ERROR_ACCESS_DENIED,
                    .openKey 0 (List.replicate 2047 'a') ERROR_SUCCESS 1] }) := by
  have hsep : (List.replicate 2047 'a').getLast? ≠ some SEP := by
    intro hlast
    have hmem := List.mem_of_getLast?_eq_some hlast
    have := List.eq_of_mem_replicate hmem
    revert this
    decide
  exact separator_unchecked scripted 0 0 openedKey (List.replicate 2047 'a')
    (by simp only [List.length_replicate, SUBKEY_BUFFER_SIZE]) hsep (by decide) (by decide)

/-! ## The well-behaved store: paths -/

theorem splitPath_ne_nil (p : CStr) : splitPath p ≠ [] := by
  cases p with
  | nil => simp [splitPath]
  | cons c cs =>
    simp only [splitPath]
    split
    · simp
    · split <;> simp

theorem splitPath_append_sep (a b : CStr) :
    splitPath (a ++ SEP :: b) = splitPath a ++ splitPath b := by
  induction a with
  | nil => simp [splitPath]
  | cons c cs ih =>
    simp only [List.cons_append, splitPath]
    split
    · simp [ih]
    · rw [show cs.append (SEP :: b) = cs ++ SEP :: b from rfl, ih]
      cases hcs : splitPath cs with
      | nil => exact absurd hcs (splitPath_ne_nil cs)
      | cons n ns => simp

theorem splitPath_of_not_mem (c : CStr) (h : SEP ∉ c) : splitPath c = [c] := by
  induction c with
  | nil => rfl
  | cons x xs ih =>
    simp only [List.mem_cons, not_or] at h
    simp only [splitPath]
    rw [if_neg (fun hx => h.1 hx.symm), ih h.2]

/-- A path whose names are all non-empty is non-empty and does not end in a
separator. -/
theorem path_of_names (p : CStr) (h : ∀ n ∈ splitPath p, n ≠ []) :
    p ≠ [] ∧ p.getLast? ≠ some SEP := by
  constructor
  · rintro rfl
    exact h [] (by simp [splitPath]) rfl
  · intro hlast
    obtain ⟨q, rfl⟩ := List.getLast?_eq_some_iff.1 hlast
    have := splitPath_append_sep q []
    simp only [splitPath] at this
    exact h [] (by rw [this]; simp) rfl

/-- The path of a child. -/
theorem splitPath_child (p c : CStr) (hc : SEP ∉ c) :
    splitPath (p ++ [SEP] ++ c) = splitPath p ++ [c] := by
  rw [List.append_assoc, List.singleton_append, splitPath_append_sep, splitPath_of_not_mem c hc]

/-! ## The well-behaved store: nodes -/

theorem mem_childNames {s : Registry} {k : List CStr} {c : CStr} :
    c ∈ s.childNames k ↔ k ++ [c] ∈ s.keys := by
  simp only [Registry.childNames, List.mem_filterMap]
  constructor
  · rintro ⟨q, hq, hc⟩
    split at hc
    · rename_i hk
      have := List.dropLast_append_getLast? c (by simpa using hc)
      rw [hk] at this
      rwa [this]
    · simp at hc
  · intro h
    exact ⟨k ++ [c], h, by simp⟩

theorem childNames_eq_nil {s : Registry} {k : List CStr} :
    s.childNames k = [] ↔ ∀ c, k ++ [c] ∉ s.keys := by
  constructor
  · intro h c hc
    have := mem_childNames.2 hc
    rw [h] at this
    simp at this
  · intro h
    apply List.eq_nil_iff_forall_not_mem.2
    intro c hc
    exact h c (mem_childNames.1 hc)

/-- Below a node there is a child of that node. -/
theorem exists_child_of_descendant {s : Registry} (hwf : s.WF) {k : List CStr} (hk : k ≠ []) :
    ∀ t : List CStr, t ≠ [] → k ++ t ∈ s.keys → ∃ c, k ++ [c] ∈ s.keys := by
  intro t
  induction t using List.reverseRecOn with
  | nil => intro h; exact absurd rfl h
  | append_singleton t c ih =>
    intro _ hmem
    by_cases ht : t = []
    · subst ht
      exact ⟨c, by simpa using hmem⟩
    · apply ih ht
      have := hwf.parents _ hmem
      rw [← List.append_assoc, List.dropLast_concat] at this
      exact this (by simp [hk])

/-- A node without children has no descendants. -/
theorem eq_of_descendant_of_leaf {s : Registry} (hwf : s.WF) {k : List CStr} (hk : k ≠ [])
    (hleaf : s.childNames k = []) {q : List CStr} (hq : q ∈ s.keys) (hpre : k <+: q) : q = k := by
  obtain ⟨t, rfl⟩ := hpre
  by_cases ht : t = []
  · simp [ht]
  · obtain ⟨c, hc⟩ := exists_child_of_descendant hwf hk t ht hq
    exact absurd hc (childNames_eq_nil.1 hleaf c)

/-! ## The well-behaved store: calls -/

theorem registry_delete_missing (s : Registry) (r : HKEY) (p : CStr) (h : splitPath p ∉ s.keys) :
    registry.RegDeleteKeyA s r p = (ERROR_FILE_NOT_FOUND, s) := by
  simp [registry, h]

theorem registry_delete_leaf (s : Registry) (r : HKEY) (p : CStr) (h : splitPath p ∈ s.keys)
    (hleaf : s.childNames (splitPath p) = []) :
    registry.RegDeleteKeyA s r p
      = (ERROR_SUCCESS, { s with keys := s.keys.filter (fun q => q ≠ splitPath p) }) := by
  simp [registry, h, hleaf]

theorem registry_delete_inner (s : Registry) (r : HKEY) (p : CStr) (h : splitPath p ∈ s.keys)
    (hinner : s.childNames (splitPath p) ≠ []) :
    registry.RegDeleteKeyA s r p = (ERROR_ACCESS_DENIED, s) := by
  simp [registry, h, hinner]

theorem registry_open_missing (s : Registry) (r : HKEY) (p : CStr) (h : splitPath p ∉ s.keys) :
    registry.RegOpenKeyExA s r p = (ERROR_FILE_NOT_FOUND, 0, s) := by
  simp [registry, h]

theorem registry_open (s : Registry) (r : HKEY) (p : CStr) (h : splitPath p ∈ s.keys) :
    registry.RegOpenKeyExA s r p
      = (ERROR_SUCCESS, s.nextHandle,
          { s with handles := (s.nextHandle, splitPath p) :: s.handles,
                   nextHandle := s.nextHandle + 1 }) := by
  simp [registry, h]

theorem registry_enum_none (s : Registry) (regKey : HKEY) (k : List CStr) (H : List (HKEY × List CStr))
    (size : Nat) (hh : s.handles = (regKey, k) :: H) (hnone : s.childNames k = []) :
    registry.RegEnumKeyExA s regKey 0 size = (ERROR_NO_MORE_ITEMS, [], s) := by
  simp [registry, hh, List.lookup, hnone]

theorem registry_enum_some (s : Registry) (regKey : HKEY) (k : List CStr) (H : List (HKEY × List CStr))
    (size : Nat) (c : CStr) (cs : List CStr) (hh : s.handles = (regKey, k) :: H)
    (hsome : s.childNames k = c :: cs) :
    registry.RegEnumKeyExA s regKey 0 size = (ERROR_SUCCESS, c, s) := by
  simp [registry, hh, List.lookup, hsome]

theorem registry_close (s : Registry) (regKey : HKEY) (k : List CStr) (H : List (HKEY × List CStr))
    (hh : s.handles = (regKey, k) :: H) :
    registry.RegCloseKey s regKey = { s with handles := H } := by
  simp [registry, hh, List.eraseP]

/-! ## The well-behaved store: the size of a sub-tree -/

theorem countP_lt_of_mem {α : Type} (p q : α → Bool) :
    ∀ (l : List α) (x : α), x ∈ l → q x = true → p x = false →
      (∀ y ∈ l, p y = true → q y = true) → l.countP p < l.countP q := by
  intro l
  induction l with
  | nil => intro x hx; simp at hx
  | cons a l ih =>
    intro x hx hq hp hpq
    have hmono : l.countP p ≤ l.countP q :=
      List.countP_mono_left (fun y hy => hpq y (List.mem_cons_of_mem _ hy))
    rcases List.mem_cons.1 hx with rfl | hx
    · rw [List.countP_cons_of_neg _ _ (by simp [hp]), List.countP_cons_of_pos _ _ hq]
      omega
    · have hlt := ih x hx hq hp (fun y hy => hpq y (List.mem_cons_of_mem _ hy))
      by_cases hpa : p a = true
      · rw [List.countP_cons_of_pos _ _ hpa,
          List.countP_cons_of_pos _ _ (hpq a (List.mem_cons_self _ _) hpa)]
        omega
      · rw [List.countP_cons_of_neg _ _ hpa]
        by_cases hqa : q a = true
        · rw [List.countP_cons_of_pos _ _ hqa]; omega
        · rw [List.countP_cons_of_neg _ _ hqa]; exact hlt

theorem not_child_prefix (k : List CStr) (c : CStr) : ¬ (k ++ [c]) <+: k := by
  intro h
  have := h.length_le
  simp at this

theorem size_pos {s : Registry} {k : List CStr} (hk : k ∈ s.keys) : 0 < s.size k :=
  List.countP_pos_iff.2 ⟨k, hk, by simp⟩

/-- The sub-tree of a child is smaller than that of its parent. -/
theorem size_child_lt {s : Registry} {k : List CStr} (c : CStr) (hk : k ∈ s.keys) :
    s.size (k ++ [c]) < s.size k := by
  apply countP_lt_of_mem _ _ s.keys k hk (by simp) (by simpa using not_child_prefix k c)
  intro y _ hy
  have hy2 : (k ++ [c]) <+: y := by simpa using hy
  simpa using (List.prefix_append k [c]).trans hy2

/-- Removing the sub-tree of a child makes the sub-tree of the parent smaller. -/
theorem size_remove_lt {s s2 : Registry} {k : List CStr} {c : CStr} (hc : k ++ [c] ∈ s.keys)
    (hkeys : s2.keys = s.keys.filter (fun q => ¬ (k ++ [c]) <+: q)) :
    s2.size k < s.size k := by
  simp only [Registry.size, hkeys, List.countP_filter]
  apply countP_lt_of_mem _ _ s.keys (k ++ [c]) hc (by simp) (by simp)
  intro y _ hy
  simp only [Bool.and_eq_true] at hy
  exact hy.1

/-- Removing a sub-tree leaves a tree. -/
theorem WF_remove {s s2 : Registry} (hwf : s.WF) (kc : List CStr)
    (hkeys : s2.keys = s.keys.filter (fun q => ¬ kc <+: q)) : s2.WF := by
  constructor
  · intro q hq
    rw [hkeys] at hq
    exact hwf.names q (List.mem_filter.1 hq).1
  · intro q hq hne
    rw [hkeys] at hq ⊢
    obtain ⟨hq1, hq2⟩ := List.mem_filter.1 hq
    refine List.mem_filter.2 ⟨hwf.parents q hq1 hne, ?_⟩
    simp only [decide_not, Bool.not_eq_true', decide_eq_false_iff_not] at hq2 ⊢
    intro hpre
    exact hq2 (hpre.trans (List.dropLast_prefix q))
  · rw [hkeys]
    exact hwf.nodup.filter _

theorem Fits_remove {s s2 : Registry} {k : List CStr} (p : List CStr → Bool)
    (hkeys : s2.keys = s.keys.filter p) (hfit : s.Fits k) : s2.Fits k := by
  intro Q hQ hpre
  rw [hkeys] at hQ
  exact hfit Q (List.mem_filter.1 hQ).1 hpre

theorem Fits_child {s : Registry} {k : List CStr} (c : CStr) (hfit : s.Fits k) :
    s.Fits (k ++ [c]) :=
  fun Q hQ hpre => hfit Q hQ ((List.prefix_append k [c]).trans hpre)

/-- Once no child of `k` is left, the tree has lost exactly what was below
`k`. -/
theorem keys_of_no_child {s s2 : Registry} (hwf2 : s2.WF) {k kc : List CStr} (hk : k ≠ [])
    (hkc : ∀ q, kc <+: q → k <+: q ∧ q ≠ k)
    (hkeys : s2.keys = s.keys.filter (fun q => ¬ kc <+: q))
    (hleaf : s2.childNames k = []) :
    s2.keys = s.keys.filter (fun q => ¬ (k <+: q ∧ q ≠ k)) := by
  have h1 : s2.keys = s2.keys.filter (fun q => ¬ (k <+: q ∧ q ≠ k)) := by
    symm
    apply List.filter_eq_self.2
    intro q hq
    simp only [decide_eq_true_eq, not_and, not_not]
    exact fun hpre => eq_of_descendant_of_leaf hwf2 hk hleaf hq hpre
  rw [h1, hkeys, List.filter_filter]
  apply List.filter_congr
  intro q _
  by_cases h : kc <+: q
  · have := hkc q h
    simp [h, this.1, this.2]
  · simp [h]

/-! ## The well-behaved store: the walk -/

/-- The loop on the well-behaved store, for a recursive call that deletes the
sub-tree of every node with fewer than `n + 1` nodes at or below it: it ends
when no child of `k` is left, or the run is aborted because a path does not
fit. -/
theorem registry_loop (recurse : Machine Registry → Option (Outcome × Machine Registry))
    (n : Nat) (k : List CStr) (P : CStr) (hP : splitPath P = k) (regKey : HKEY)
    (H : List (HKEY × List CStr))
    (hrec : ∀ m : Machine Registry, m.store.WF → splitPath m.subKey ∈ m.store.keys →
      m.store.size (splitPath m.subKey) ≤ n →
      ∃ o m', recurse m = some (o, m') ∧
        ((o = .returned true ∧
            m'.store.keys = m.store.keys.filter (fun q => ¬ splitPath m.subKey <+: q) ∧
            m'.store.handles = m.store.handles ∧ m'.subKey = m.subKey) ∨
         ((∃ a, o = .aborted a) ∧ ¬ m.store.Fits (splitPath m.subKey))))
    (hend : P.length + 1 < SUBKEY_BUFFER_SIZE) :
    ∀ (f : Nat) (c : CStr) (m : Machine Registry), m.store.WF → k ∈ m.store.keys →
      m.store.handles = (regKey, k) :: H → k ++ [c] ∈ m.store.keys →
      (P ++ [SEP]) <+: m.subKey → m.store.size k ≤ n + 1 → m.store.size k ≤ f + 1 →
      ∃ x m', enumLoop registry recurse regKey (P.length + 1) f c m = some (x, m') ∧
        ((x = .finished ∧
            m'.store.keys = m.store.keys.filter (fun q => ¬ (k <+: q ∧ q ≠ k)) ∧
            m'.store.handles = m.store.handles ∧ (P ++ [SEP]) <+: m'.subKey) ∨
         ((∃ a, x = .aborted a) ∧ ¬ m.store.Fits k)) := by
  intro f
  induction f with
  | zero =>
    intro c m hwf hk hh hc hpre hn hf
    have h1 := size_child_lt c hk
    have h2 := size_pos hc
    omega
  | succ f ih =>
    intro c m hwf hk hh hc hpre hn hf
    have hknil : k ≠ [] := (hwf.names k hk).1
    have hcsep : SEP ∉ c := ((hwf.names _ hc).2 c (by simp)).2
    have htake : m.subKey.take (P.length + 1) = P ++ [SEP] := by
      have := (List.prefix_iff_eq_take).1 hpre
      simpa using this.symm
    have hsplit : splitPath (P ++ [SEP] ++ c) = k ++ [c] := by
      rw [splitPath_child P c hcsep, hP]
    simp only [enumLoop, hend, if_true, htake]
    by_cases hcat : (P ++ [SEP]).length + c.length < SUBKEY_BUFFER_SIZE
    · simp only [strcat_s, hcat, if_true]
      obtain ⟨o, m1, hr, hcases⟩ := hrec { m with subKey := P ++ [SEP] ++ c } hwf
        (by
          show splitPath (P ++ [SEP] ++ c) ∈ m.store.keys
          rw [hsplit]; exact hc)
        (by
          show m.store.size (splitPath (P ++ [SEP] ++ c)) ≤ n
          rw [hsplit]
          have := size_child_lt c hk
          omega)
      rw [show splitPath ({ m with subKey := P ++ [SEP] ++ c } : Machine Registry).subKey
        = k ++ [c] from hsplit] at hcases
      rw [hr]
      rcases hcases with ⟨rfl, hkeys, hhandles, hsub⟩ | ⟨⟨a, rfl⟩, hnofit⟩
      · simp only at hkeys hhandles hsub
        have hwf1 : m1.store.WF := WF_remove hwf _ hkeys
        have hk1 : k ∈ m1.store.keys := by
          rw [hkeys]
          exact List.mem_filter.2 ⟨hk, by simpa using not_child_prefix k c⟩
        have hh1 : m1.store.handles = (regKey, k) :: H := by rw [hhandles, hh]
        have hlt : m1.store.size k < m.store.size k := size_remove_lt hc hkeys
        have hsub1 : (P ++ [SEP]) <+: m1.subKey := by
          rw [hsub]; exact List.prefix_append _ _
        cases hkids : m1.store.childNames k with
        | nil =>
          have henum : callEnum registry regKey m1
              = (ERROR_NO_MORE_ITEMS, [], { m1 with log := m1.log ++
                  [Event.enumKey regKey 0 ERROR_NO_MORE_ITEMS []] }) := by
            simp [callEnum, registry_enum_none m1.store regKey k H MAX_PATH hh1 hkids]
          have hne : ERROR_NO_MORE_ITEMS ≠ ERROR_SUCCESS := by decide
          simp only [henum, hne, if_false]
          refine ⟨_, _, rfl, Or.inl ⟨rfl, ?_, ?_, hsub1⟩⟩
          · exact keys_of_no_child hwf1 hknil
              (fun q hq => ⟨(List.prefix_append k [c]).trans hq, fun hqk =>
                not_child_prefix k c (hqk ▸ hq)⟩) hkeys hkids
          · exact hhandles
        | cons c2 cs =>
          have henum : callEnum registry regKey m1
              = (ERROR_SUCCESS, c2, { m1 with log := m1.log ++
                  [Event.enumKey regKey 0 ERROR_SUCCESS c2] }) := by
            simp [callEnum, registry_enum_some m1.store regKey k H MAX_PATH c2 cs hh1 hkids]
          simp only [henum, if_true]
          have hc2 : k ++ [c2] ∈ m1.store.keys := mem_childNames.1 (by rw [hkids]; simp)
          obtain ⟨x, m2, hloop, hcases2⟩ := ih c2
            { m1 with log := m1.log ++ [Event.enumKey regKey 0 ERROR_SUCCESS c2] }
            hwf1 hk1 hh1 hc2 hsub1 (by simp only; omega) (by simp only; omega)
          refine ⟨x, m2, hloop, ?_⟩
          rcases hcases2 with ⟨rfl, hkeys2, hhandles2, hsub2⟩ | ⟨hab, hnofit⟩
          · refine Or.inl ⟨rfl, ?_, ?_, hsub2⟩
            · simp only at hkeys2
              rw [hkeys2, hkeys, List.filter_filter]
              apply List.filter_congr
              intro q _
              by_cases hq : (k ++ [c]) <+: q
              · have h1 : k <+: q := (List.prefix_append k [c]).trans hq
                have h2 : q ≠ k := fun hqk => not_child_prefix k c (hqk ▸ hq)
                simp [hq, h1, h2]
              · simp [hq]
            · simp only at hhandles2
              rw [hhandles2, hhandles]
          · exact Or.inr ⟨hab, fun hfit => hnofit (Fits_remove _ hkeys hfit)⟩
      · exact ⟨_, _, rfl, Or.inr ⟨⟨a, rfl⟩, fun hfit => hnofit (Fits_child c hfit)⟩⟩
    · simp only [strcat_s, hcat, if_false]
      refine ⟨_, _, rfl, Or.inr ⟨⟨.fatal, rfl⟩, fun hfit => hcat ?_⟩⟩
      have := hfit (P ++ [SEP] ++ c) (by rw [hsplit]; exact hc)
        (by rw [hsplit]; exact List.prefix_append _ _)
      simp only [List.length_append, List.length_singleton] at this ⊢
      omega

/-- The walk over an open node of the well-behaved store that has children. -/
theorem registry_walk (rootKey : HKEY)
    (recurse : Machine Registry → Option (Outcome × Machine Registry)) (n : Nat)
    (hrec : ∀ m : Machine Registry, m.store.WF → splitPath m.subKey ∈ m.store.keys →
      m.store.size (splitPath m.subKey) ≤ n →
      ∃ o m', recurse m = some (o, m') ∧
        ((o = .returned true ∧
            m'.store.keys = m.store.keys.filter (fun q => ¬ splitPath m.subKey <+: q) ∧
            m'.store.handles = m.store.handles ∧ m'.subKey = m.subKey) ∨
         ((∃ a, o = .aborted a) ∧ ¬ m.store.Fits (splitPath m.subKey))))
    (F : Nat) (regKey : HKEY) (H : List (HKEY × List CStr)) (m : Machine Registry)
    (hwf : m.store.WF) (hk : splitPath m.subKey ∈ m.store.keys)
    (hh : m.store.handles = (regKey, splitPath m.subKey) :: H)
    (c : CStr) (cs : List CStr) (hkids : m.store.childNames (splitPath m.subKey) = c :: cs)
    (hsize : m.store.size (splitPath m.subKey) ≤ n + 1)
    (hF : m.store.size (splitPath m.subKey) ≤ F + 1) :
    ∃ o m', walkNode registry rootKey recurse F regKey m = some (o, m') ∧
      ((o = .returned true ∧
          m'.store.keys = m.store.keys.filter (fun q => ¬ splitPath m.subKey <+: q) ∧
          m'.store.handles = H ∧ m'.subKey = m.subKey) ∨
       ((∃ a, o = .aborted a) ∧ ¬ m.store.Fits (splitPath m.subKey))) := by
  have hnames := hwf.names _ hk
  have hknil : splitPath m.subKey ≠ [] := hnames.1
  obtain ⟨hPne, hPsep⟩ := path_of_names m.subKey (fun x hx => (hnames.2 x hx).1)
  have hc : splitPath m.subKey ++ [c] ∈ m.store.keys :=
    mem_childNames.1 (by rw [hkids]; simp)
  have hcsep : SEP ∉ c := ((hwf.names _ hc).2 c (by simp)).2
  have hlen : m.subKey.length ≠ 0 := fun h => hPne (List.length_eq_zero.1 h)
  simp only [walkNode, appendSeparator, hlen, if_false, hPsep, ne_eq, not_false_eq_true, if_true]
  by_cases hend : m.subKey.length + 1 < SUBKEY_BUFFER_SIZE
  · simp only [hend, if_true]
    have henum : callEnum registry regKey { m with subKey := m.subKey ++ [SEP] }
        = (ERROR_SUCCESS, c,
            { m with subKey := m.subKey ++ [SEP],
                     log := m.log ++ [Event.enumKey regKey 0 ERROR_SUCCESS c] }) := by
      simp [callEnum, registry_enum_some m.store regKey _ H MAX_PATH c cs hh hkids]
    simp only [enumChildren, henum, if_true]
    obtain ⟨x, m3, hloop, hcases⟩ := registry_loop recurse n (splitPath m.subKey) m.subKey rfl
      regKey H hrec hend F c
      { m with subKey := m.subKey ++ [SEP],
               log := m.log ++ [Event.enumKey regKey 0 ERROR_SUCCESS c] }
      hwf hk hh hc (List.prefix_refl _) hsize hF
    rw [hloop]
    rcases hcases with ⟨rfl, hkeys, hhandles, hsub⟩ | ⟨⟨a, rfl⟩, hnofit⟩
    · simp only at hkeys hhandles hsub
      have htake : m3.subKey.take (m.subKey.length + 1 - 1) = m.subKey := by
        have h1 : m.subKey <+: m3.subKey := (List.prefix_append _ _).trans hsub
        simpa using ((List.prefix_iff_eq_take).1 h1).symm
      have hk3 : splitPath m.subKey ∈ m3.store.keys := by
        rw [hkeys]
        exact List.mem_filter.2 ⟨hk, by simp⟩
      have hleaf3 : m3.store.childNames (splitPath m.subKey) = [] := by
        apply childNames_eq_nil.2
        intro c2 hc2
        rw [hkeys] at hc2
        have := (List.mem_filter.1 hc2).2
        simp at this
      have hclose : callClose registry regKey { m3 with subKey := m.subKey }
          = { store := { m3.store with handles := H }, subKey := m.subKey,
              log := m3.log ++ [Event.closeKey regKey] } := by
        simp [callClose, registry_close m3.store regKey _ H (hhandles.trans hh)]
      have hdel : callDelete registry rootKey
          { store := { m3.store with handles := H }, subKey := m.subKey,
            log := m3.log ++ [Event.closeKey regKey] }
          = (ERROR_SUCCESS,
              { store := { m3.store with
                  keys := m3.store.keys.filter (fun q => q ≠ splitPath m.subKey),
                  handles := H },
                subKey := m.subKey,
                log := m3.log ++ [Event.closeKey regKey] ++
                  [Event.deleteKey rootKey m.subKey ERROR_SUCCESS] }) := by
        simp [callDelete, registry_delete_leaf { m3.store with handles := H } rootKey m.subKey
          hk3 hleaf3]
      simp only [finishNode, htake, hclose, hdel]
      refine ⟨_, _, rfl, Or.inl ⟨by simp, ?_, rfl, rfl⟩⟩
      simp only
      rw [hkeys, List.filter_filter]
      apply List.filter_congr
      intro q _
      by_cases hpre : splitPath m.subKey <+: q
      · by_cases hq : q = splitPath m.subKey <;> simp [hpre, hq]
      · have : q ≠ splitPath m.subKey := fun h => hpre (h ▸ List.prefix_refl _)
        simp [hpre, this]
    · exact ⟨_, _, rfl, Or.inr ⟨⟨a, rfl⟩, hnofit⟩⟩
  · simp only [hend, if_false]
    refine ⟨_, _, rfl, Or.inr ⟨⟨.outOfBounds, rfl⟩, fun hfit => hend ?_⟩⟩
    have := hfit (m.subKey ++ [SEP] ++ c)
      (by rw [splitPath_child _ c hcsep]; exact hc)
      (by rw [splitPath_child _ c hcsep]; exact List.prefix_append _ _)
    simp only [List.length_append, List.length_singleton] at this
    omega

/-- `RegDelnodeRecurse` on the well-behaved store, entered on an existing
node with at most `n` nodes at or below it and with more fuel than that: it
returns `TRUE`, having removed exactly the node and what is below it, with the
handles and the buffer as they were; or the run is aborted because the path of
a node at or below it does not fit the buffer. -/
theorem registry_node (rootKey : HKEY) :
    ∀ (n fuel : Nat) (m : Machine Registry), m.store.WF →
      splitPath m.subKey ∈ m.store.keys → m.store.size (splitPath m.subKey) ≤ n → n < fuel →
      ∃ o m', RegDelnodeRecurse registry rootKey fuel m = some (o, m') ∧
        ((o = .returned true ∧
            m'.store.keys = m.store.keys.filter (fun q => ¬ splitPath m.subKey <+: q) ∧
            m'.store.handles = m.store.handles ∧ m'.subKey = m.subKey) ∨
         ((∃ a, o = .aborted a) ∧ ¬ m.store.Fits (splitPath m.subKey))) := by
  intro n
  induction n with
  | zero =>
    intro fuel m hwf hk hsize
    have := size_pos hk
    omega
  | succ n ih =>
    intro fuel m hwf hk hsize hfuel
    obtain ⟨F, rfl⟩ : ∃ F, fuel = F + 1 := ⟨fuel - 1, by omega⟩
    have hF : n < F := by omega
    have hnames := hwf.names _ hk
    have hknil : splitPath m.subKey ≠ [] := hnames.1
    obtain ⟨hPne, hPsep⟩ := path_of_names m.subKey (fun x hx => (hnames.2 x hx).1)
    simp only [RegDelnodeRecurse]
    cases hkids : m.store.childNames (splitPath m.subKey) with
    | nil =>
      have hdel : callDelete registry rootKey { m with log := m.log ++ [Event.enter m.subKey] }
          = (ERROR_SUCCESS,
              { store := { m.store with
                  keys := m.store.keys.filter (fun q => q ≠ splitPath m.subKey) },
                subKey := m.subKey,
                log := m.log ++ [Event.enter m.subKey] ++
                  [Event.deleteKey rootKey m.subKey ERROR_SUCCESS] }) := by
        simp [callDelete, registry_delete_leaf m.store rootKey m.subKey hk hkids]
      simp only [hdel, if_true]
      refine ⟨_, _, rfl, Or.inl ⟨rfl, ?_, rfl, rfl⟩⟩
      apply List.filter_congr
      intro q hq
      by_cases hpre : splitPath m.subKey <+: q
      · have := eq_of_descendant_of_leaf hwf hknil hkids hq hpre
        simp [hpre, this]
      · have : q ≠ splitPath m.subKey := fun h => hpre (h ▸ List.prefix_refl _)
        simp [hpre, this]
    | cons c cs =>
      have hc : splitPath m.subKey ++ [c] ∈ m.store.keys :=
        mem_childNames.1 (by rw [hkids]; simp)
      have hcsep : SEP ∉ c := ((hwf.names _ hc).2 c (by simp)).2
      have hdel : callDelete registry rootKey { m with log := m.log ++ [Event.enter m.subKey] }
          = (ERROR_ACCESS_DENIED,
              { m with log := m.log ++ [Event.enter m.subKey] ++
                  [Event.deleteKey rootKey m.subKey ERROR_ACCESS_DENIED] }) := by
        simp [callDelete, registry_delete_inner m.store rootKey m.subKey hk (by simp [hkids])]
      have hne : ERROR_ACCESS_DENIED ≠ ERROR_SUCCESS := by decide
      simp only [hdel, hne, if_false]
      have hopen : callOpen registry rootKey
          { m with log := m.log ++ [Event.enter m.subKey] ++
              [Event.deleteKey rootKey m.subKey ERROR_ACCESS_DENIED] }
          = (ERROR_SUCCESS, m.store.nextHandle,
              { store := { m.store with
                  handles := (m.store.nextHandle, splitPath m.subKey) :: m.store.handles,
                  nextHandle := m.store.nextHandle + 1 },
                subKey := m.subKey,
                log := m.log ++ [Event.enter m.subKey] ++
                  [Event.deleteKey rootKey m.subKey ERROR_ACCESS_DENIED] ++
                  [Event.openKey rootKey m.subKey ERROR_SUCCESS m.store.nextHandle] }) := by
        simp [callOpen, registry_open m.store rootKey m.subKey hk]
      simp only [hopen, ne_eq, not_true_eq_false, if_false]
      exact registry_walk rootKey (RegDelnodeRecurse registry rootKey F) n
        (fun m2 h1 h2 h3 => ih F m2 h1 h2 h3 hF) F m.store.nextHandle m.store.handles
        _ ⟨hwf.names, hwf.parents, hwf.nodup⟩ hk rfl c cs hkids hsize
        (show m.store.size (splitPath m.subKey) ≤ F + 1 by omega)

/-- The length of a path, from its names: every name and one separator or
terminator each. -/
theorem splitPath_length (p : CStr) :
    ((splitPath p).map (fun n => n.length + 1)).sum = p.length + 1 := by
  induction p with
  | nil => simp [splitPath]
  | cons c cs ih =>
    simp only [splitPath]
    split
    · simp only [List.map_cons, List.sum_cons, List.length_nil, List.length_cons, ih]
      omega
    · cases hcs : splitPath cs with
      | nil => exact absurd hcs (splitPath_ne_nil cs)
      | cons n ns =>
        rw [hcs] at ih
        simp only [List.map_cons, List.sum_cons, List.length_cons] at ih ⊢
        omega

theorem size_le_length (s : Registry) (k : List CStr) : s.size k ≤ s.keys.length :=
  List.countP_le_length _

/-! ## C2: a path that names no key -/

/-- C2 (as amended): for every store in which no node exists at the path, that
is, the direct delete and the open both report `ERROR_FILE_NOT_FOUND` and, as
reports of absence, leave the store as it is (the well-behaved store `registry`
answers so for every missing node, see `registry_delete_missing` and
`registry_open_missing`), for every path that fits the buffer (at most 2047
characters) and every amount of fuel, `DeleteRegistryPath` returns `TRUE`,
leaves the store unchanged, and the log holds exactly these two registry calls
between the entry and the return of the one invocation: no enumeration, no
close, no second delete. -/
theorem missing_path_returns_true (S : Store σ) (fuel : Nat) (hKeyRoot : HKEY) (s : σ)
    (subKey : CStr) (regKey : HKEY) (hfit : subKey.length < SUBKEY_BUFFER_SIZE)
    (hdel : S.RegDeleteKeyA s hKeyRoot subKey = (ERROR_FILE_NOT_FOUND, s))
    (hopen : S.RegOpenKeyExA s hKeyRoot subKey = (ERROR_FILE_NOT_FOUND, regKey, s)) :
    DeleteRegistryPath S (fuel + 1) hKeyRoot s subKey
      = some (.returned true,
          { store := s, subKey := subKey,
            log := [.enter subKey, .deleteKey hKeyRoot subKey ERROR_FILE_NOT_FOUND,
                    .openKey hKeyRoot subKey ERROR_FILE_NOT_FOUND regKey,
                    .leave subKey true] }) := by
  have h1 : ERROR_FILE_NOT_FOUND ≠ ERROR_SUCCESS := by decide
  simp [DeleteRegistryPath, strcpy_s, hfit, RegDelnodeRecurse, callDelete, callOpen, hdel, hopen, h1]

/-- C2, witness: the path `M` names no node of the sample tree; the
well-behaved store is left as it was. -/
theorem missing_path_returns_true_witness :
    DeleteRegistryPath registry 1 0 sampleTree pathM
      = some (.returned true,
          { store := sampleTree, subKey := pathM,
            log := [.enter pathM, .deleteKey 0 pathM ERROR_FILE_NOT_FOUND,
                    .openKey 0 pathM ERROR_FILE_NOT_FOUND 0, .leave pathM true] }) :=
  missing_path_returns_true registry 0 0 sampleTree pathM 0 (by decide) (by decide) (by decide)

/-- C2, counterexample to the claim as stated (for every path): the path
`tooLong` of 2048 characters names no node of the sample tree, the direct
delete and the open report `ERROR_FILE_NOT_FOUND` for it and leave the store as
it is, and `DeleteRegistryPath` ends in the fatal path before any registry
call. -/
theorem missing_path_too_long_counterexample :
    registry.RegDeleteKeyA sampleTree 0 tooLong = (ERROR_FILE_NOT_FOUND, sampleTree) ∧
    registry.RegOpenKeyExA sampleTree 0 tooLong = (ERROR_FILE_NOT_FOUND, 0, sampleTree) ∧
    DeleteRegistryPath registry 1 0 sampleTree tooLong
      = some (.aborted .fatal, { store := sampleTree, subKey := [], log := [] }) := by
  have hlen : tooLong.length = 2048 := List.length_replicate _ _
  have hsep : SEP ∉ tooLong := by
    intro h
    have := List.eq_of_mem_replicate h
    revert this
    decide
  have hne : ∀ c : Char, tooLong ≠ [c] := by
    intro c h
    have := congrArg List.length h
    rw [hlen] at this
    simp at this
  have hmiss : splitPath tooLong ∉ sampleTree.keys := by
    rw [splitPath_of_not_mem tooLong hsep]
    simp [sampleTree, hne]
  refine ⟨registry_delete_missing sampleTree 0 tooLong hmiss,
    registry_open_missing sampleTree 0 tooLong hmiss, ?_⟩
  simp only [DeleteRegistryPath, strcpy_s, hlen, SUBKEY_BUFFER_SIZE, lt_self_iff_false, if_false]

/-! ## C1: the sub-tree is deleted -/

/-- C1: on the well-behaved store holding a tree, for every path that names an
existing node (such a path is non-empty and has no trailing separator) and
whose node and descendants all have paths that fit the 2048-unit buffer, and
with more fuel than there are nodes at or below the path, `DeleteRegistryPath`
returns `TRUE`, and the store then holds the nodes it held before except the
node at the path and its descendants, in the same order; the open handles are
those that were open before. -/
theorem DeleteRegistryPath_deletes_subtree (hKeyRoot : HKEY) (s : Registry) (subKey : CStr)
    (fuel : Nat) (hwf : s.WF) (hex : splitPath subKey ∈ s.keys)
    (hfit : s.Fits (splitPath subKey)) (hfuel : s.size (splitPath subKey) < fuel) :
    ∃ m', DeleteRegistryPath registry fuel hKeyRoot s subKey = some (.returned true, m') ∧
      m'.store.keys = s.keys.filter (fun q => ¬ splitPath subKey <+: q) ∧
      m'.store.handles = s.handles := by
  have hlen : subKey.length < SUBKEY_BUFFER_SIZE := hfit subKey hex (List.prefix_refl _)
  simp only [DeleteRegistryPath, strcpy_s, hlen, if_true]
  obtain ⟨o, m', hrun, hcases⟩ := registry_node hKeyRoot (s.size (splitPath subKey)) fuel
    { store := s, subKey := subKey, log := [] } hwf hex (le_refl _) hfuel
  rcases hcases with ⟨rfl, hkeys, hhandles, -⟩ | ⟨-, hnofit⟩
  · exact ⟨m', hrun, hkeys, hhandles⟩
  · exact absurd hfit hnofit

/-- The sample tree is a tree. -/
theorem sampleTree_WF : sampleTree.WF := ⟨by decide, by decide, by decide⟩

/-- Every path into the sample tree fits the buffer. -/
theorem sampleTree_Fits (k : List CStr) : sampleTree.Fits k := by
  intro Q hQ _
  have hlen := splitPath_length Q
  simp only [sampleTree, List.mem_cons, List.mem_singleton, List.not_mem_nil, or_false] at hQ
  rcases hQ with h | h | h | h | h <;>
    · rw [h] at hlen
      simp only [List.map_cons, List.map_nil, List.sum_cons, List.sum_nil, List.length_cons,
        List.length_nil] at hlen
      simp only [SUBKEY_BUFFER_SIZE]
      omega

/-- C1, witness: deleting `A` from the sample tree leaves `X`. -/
theorem DeleteRegistryPath_deletes_subtree_witness :
    ∃ m', DeleteRegistryPath registry 5 0 sampleTree pathA = some (.returned true, m') ∧
      m'.store.keys = sampleTree.keys.filter (fun q => ¬ splitPath pathA <+: q) ∧
      m'.store.handles = sampleTree.handles :=
  DeleteRegistryPath_deletes_subtree 0 sampleTree pathA 5 sampleTree_WF (by decide)
    (sampleTree_Fits _) (by decide)

/-! ## C10: termination -/

/-- C10: on the well-behaved store holding a tree, for every path,
`DeleteRegistryPath` ends once it has more fuel than the store has nodes: the
recursion descends into a sub-tree with fewer nodes, and every iteration of
the loop that enumerates again has removed the child it was given.  The run
ends with `TRUE`, or it is aborted because the path, or the path of a node
below it, does not fit the buffer. -/
theorem DeleteRegistryPath_terminates (hKeyRoot : HKEY) (s : Registry) (subKey : CStr)
    (fuel : Nat) (hwf : s.WF) (hfuel : s.keys.length < fuel) :
    ∃ o m', DeleteRegistryPath registry fuel hKeyRoot s subKey = some (o, m') ∧
      (o = .returned true ∨
        ((∃ a, o = .aborted a) ∧
          ¬ (subKey.length < SUBKEY_BUFFER_SIZE ∧ s.Fits (splitPath subKey)))) := by
  by_cases hlen : subKey.length < SUBKEY_BUFFER_SIZE
  · have hstart : DeleteRegistryPath registry fuel hKeyRoot s subKey
        = RegDelnodeRecurse registry hKeyRoot fuel { store := s, subKey := subKey, log := [] } := by
      simp only [DeleteRegistryPath, strcpy_s, hlen, if_true]
    rw [hstart]
    by_cases hex : splitPath subKey ∈ s.keys
    · obtain ⟨o, m', hrun, hcases⟩ := registry_node hKeyRoot (s.size (splitPath subKey)) fuel
        { store := s, subKey := subKey, log := [] } hwf hex (le_refl _)
        (lt_of_le_of_lt (size_le_length s _) hfuel)
      refine ⟨o, m', hrun, ?_⟩
      rcases hcases with ⟨rfl, -⟩ | ⟨hab, hnofit⟩
      · exact Or.inl rfl
      · exact Or.inr ⟨hab, fun h => hnofit h.2⟩
    · obtain ⟨F, rfl⟩ : ∃ F, fuel = F + 1 := ⟨fuel - 1, by omega⟩
      have h1 : ERROR_FILE_NOT_FOUND ≠ ERROR_SUCCESS := by decide
      have hrun : RegDelnodeRecurse registry hKeyRoot (F + 1)
          { store := s, subKey := subKey, log := [] }
          = some (.returned true,
              { store := s, subKey := subKey,
                log := [.enter subKey, .deleteKey hKeyRoot subKey ERROR_FILE_NOT_FOUND,
                        .openKey hKeyRoot subKey ERROR_FILE_NOT_FOUND 0,
                        .leave subKey true] }) := by
        simp [RegDelnodeRecurse, callDelete, callOpen,
          registry_delete_missing s hKeyRoot subKey hex,
          registry_open_missing s hKeyRoot subKey hex, h1]
      exact ⟨_, _, hrun, Or.inl rfl⟩
  · have hstart : DeleteRegistryPath registry fuel hKeyRoot s subKey
        = some (.aborted .fatal, { store := s, subKey := [], log := [] }) := by
      simp only [DeleteRegistryPath, strcpy_s, hlen, if_false]
    exact ⟨_, _, hstart, Or.inr ⟨⟨.fatal, rfl⟩, fun h => hlen h.1⟩⟩

/-- C10, witness: the run on `A` in the sample tree ends with six units of
fuel. -/
theorem DeleteRegistryPath_terminates_witness :
    ∃ o m', DeleteRegistryPath registry 6 0 sampleTree pathA = some (o, m') ∧
      (o = .returned true ∨
        ((∃ a, o = .aborted a) ∧
          ¬ (pathA.length < SUBKEY_BUFFER_SIZE ∧ sampleTree.Fits (splitPath pathA)))) :=
  DeleteRegistryPath_terminates 0 sampleTree pathA 6 sampleTree_WF (by decide)

/-! ## C9: a node whose children are leaves -/

theorem childLog_storeCalls (rootKey regKey : HKEY) (p : CStr) (cs : List CStr) :
    (childLog rootKey regKey p cs).filter Event.isStoreCall = childCalls rootKey regKey p cs := by
  induction cs with
  | nil => rfl
  | cons c cs ih => simp [childLog, childCalls, Event.isStoreCall, ih]

/-- After the delete of the first child, the children are the others. -/
theorem filterMap_child_after_delete (k : List CStr) (c : CStr) :
    ∀ (l : List (List CStr)) (cs : List CStr), l.Nodup →
      l.filterMap (fun q => if q.dropLast = k then q.getLast? else none) = c :: cs →
      (l.filter (fun q => q ≠ k ++ [c])).filterMap
        (fun q => if q.dropLast = k then q.getLast? else none) = cs := by
  intro l
  induction l with
  | nil => intro cs _ h; simp at h
  | cons q rest ih =>
    intro cs hnd h
    obtain ⟨hq, hrest⟩ := List.nodup_cons.1 hnd
    by_cases hk : q.dropLast = k
    · cases hlast : q.getLast? with
      | none =>
        have hne : q ≠ k ++ [c] := by
          intro hqc
          rw [hqc] at hlast
          simp at hlast
        simp only [List.filterMap_cons, hk, if_true, hlast] at h
        simp only [List.filter_cons, hne, ne_eq, not_false_eq_true, decide_True, if_true,
          List.filterMap_cons, hk, hlast]
        exact ih cs hrest h
      | some c2 =>
        simp only [List.filterMap_cons, hk, if_true, hlast, List.cons.injEq] at h
        obtain ⟨rfl, h⟩ := h
        have hqc : q = k ++ [c2] := by
          have := List.dropLast_append_getLast? c2 (by simpa using hlast)
          rw [hk] at this
          exact this.symm
        have hkeep : rest.filter (fun q => !decide (q = k ++ [c2])) = rest := by
          apply List.filter_eq_self.2
          intro y hy
          have : y ≠ k ++ [c2] := fun hyq => hq (by rw [hqc, ← hyq]; exact hy)
          simpa using this
        simp only [List.filter_cons, hqc, ne_eq, not_true_eq_false, decide_False]
        simpa [hkeep] using h
    · have hne : q ≠ k ++ [c] := by
        intro hqc
        apply hk
        rw [hqc, List.dropLast_concat]
      simp only [List.filterMap_cons, hk, if_false] at h
      simp only [List.filter_cons, hne, ne_eq, not_false_eq_true, decide_True, if_true,
        List.filterMap_cons, hk, if_false]
      exact ih cs hrest h

/-- Deleting a leaf leaves a tree. -/
theorem WF_delete_leaf {s s2 : Registry} (hwf : s.WF) {kc : List CStr} (hkc : kc ∈ s.keys)
    (hleaf : s.childNames kc = [])
    (hkeys : s2.keys = s.keys.filter (fun q => q ≠ kc)) : s2.WF := by
  apply WF_remove hwf kc
  rw [hkeys]
  apply List.filter_congr
  intro q hq
  by_cases hpre : kc <+: q
  · have := eq_of_descendant_of_leaf hwf (hwf.names kc hkc).1 hleaf hq hpre
    simp [hpre, this]
  · have : q ≠ kc := fun h => hpre (h ▸ List.prefix_refl _)
    simp [hpre, this]

/-- The invocation on a leaf of the well-behaved store: one delete. -/
theorem registry_leaf (rootKey : HKEY) (F : Nat) (m : Machine Registry)
    (hk : splitPath m.subKey ∈ m.store.keys)
    (hleaf : m.store.childNames (splitPath m.subKey) = []) :
    RegDelnodeRecurse registry rootKey (F + 1) m
      = some (.returned true,
          { store := { m.store with
              keys := m.store.keys.filter (fun q => q ≠ splitPath m.subKey) },
            subKey := m.subKey,
            log := m.log ++ [.enter m.subKey, .deleteKey rootKey m.subKey ERROR_SUCCESS,
                             .leave m.subKey true] }) := by
  simp [RegDelnodeRecurse, callDelete, registry_delete_leaf m.store rootKey m.subKey hk hleaf]

/-- One iteration of the loop on a child that is a leaf: the child is
deleted and the enumeration is asked again. -/
theorem registry_iteration_leaf (rootKey : HKEY) (F : Nat) (k : List CStr) (P : CStr)
    (hP : splitPath P = k) (regKey : HKEY) (hend : P.length + 1 < SUBKEY_BUFFER_SIZE)
    (c : CStr) (f : Nat) (m : Machine Registry) (hwf : m.store.WF)
    (hc : k ++ [c] ∈ m.store.keys) (hleaf : m.store.childNames (k ++ [c]) = [])
    (hpre : (P ++ [SEP]) <+: m.subKey) (hfit : m.store.Fits k) :
    ∃ m1 : Machine Registry,
      m1.store.keys = m.store.keys.filter (fun q => q ≠ k ++ [c]) ∧
      m1.store.handles = m.store.handles ∧ m1.subKey = P ++ [SEP] ++ c ∧
      m1.log = m.log ++ [.enter (P ++ [SEP] ++ c),
        .deleteKey rootKey (P ++ [SEP] ++ c) ERROR_SUCCESS, .leave (P ++ [SEP] ++ c) true] ∧
      enumLoop registry (RegDelnodeRecurse registry rootKey (F + 1)) regKey (P.length + 1)
          (f + 1) c m
        = if (callEnum registry regKey m1).1 = ERROR_SUCCESS then
            enumLoop registry (RegDelnodeRecurse registry rootKey (F + 1)) regKey (P.length + 1)
              f (callEnum registry regKey m1).2.1 (callEnum registry regKey m1).2.2
          else some (.finished, (callEnum registry regKey m1).2.2) := by
  have hcsep : SEP ∉ c := ((hwf.names _ hc).2 c (by simp)).2
  have htake : m.subKey.take (P.length + 1) = P ++ [SEP] := by
    have := (List.prefix_iff_eq_take).1 hpre
    simpa using this.symm
  have hsplit : splitPath (P ++ [SEP] ++ c) = k ++ [c] := by
    rw [splitPath_child P c hcsep, hP]
  have hcat : (P ++ [SEP]).length + c.length < SUBKEY_BUFFER_SIZE := by
    have := hfit (P ++ [SEP] ++ c) (by rw [hsplit]; exact hc)
      (by rw [hsplit]; exact List.prefix_append _ _)
    simp only [List.length_append, List.length_singleton] at this ⊢
    omega
  have hrec := registry_leaf rootKey F { m with subKey := P ++ [SEP] ++ c }
    (by show splitPath (P ++ [SEP] ++ c) ∈ m.store.keys; rw [hsplit]; exact hc)
    (by show m.store.childNames (splitPath (P ++ [SEP] ++ c)) = []; rw [hsplit]; exact hleaf)
  rw [show splitPath ({ m with subKey := P ++ [SEP] ++ c } : Machine Registry).subKey
    = k ++ [c] from hsplit] at hrec
  refine ⟨{ store := { m.store with keys := m.store.keys.filter (fun q => q ≠ k ++ [c]) },
             subKey := P ++ [SEP] ++ c,
             log := m.log ++ [.enter (P ++ [SEP] ++ c),
               .deleteKey rootKey (P ++ [SEP] ++ c) ERROR_SUCCESS,
               .leave (P ++ [SEP] ++ c) true] }, rfl, rfl, rfl, rfl, ?_⟩
  simp only [enumLoop, hend, if_true, htake, strcat_s, hcat, hrec]

/-- The loop over children that are leaves. -/
theorem registry_loop_leaves (rootKey : HKEY) (F : Nat) (k : List CStr) (P : CStr)
    (hP : splitPath P = k) (regKey : HKEY) (H : List (HKEY × List CStr))
    (hend : P.length + 1 < SUBKEY_BUFFER_SIZE) :
    ∀ (cs : List CStr) (c : CStr) (f : Nat) (m : Machine Registry), m.store.WF →
      k ∈ m.store.keys → m.store.handles = (regKey, k) :: H →
      m.store.childNames k = c :: cs →
      (∀ c2 ∈ c :: cs, m.store.childNames (k ++ [c2]) = []) →
      (P ++ [SEP]) <+: m.subKey → m.store.Fits k → cs.length < f →
      ∃ m', enumLoop registry (RegDelnodeRecurse registry rootKey (F + 1)) regKey
            (P.length + 1) f c m = some (.finished, m') ∧
        m'.log = m.log ++ ([.enter (P ++ [SEP] ++ c),
            .deleteKey rootKey (P ++ [SEP] ++ c) ERROR_SUCCESS, .leave (P ++ [SEP] ++ c) true] ++
          childLog rootKey regKey P cs ++ [.enumKey regKey 0 ERROR_NO_MORE_ITEMS []]) ∧
        m'.store.handles = m.store.handles ∧ (P ++ [SEP]) <+: m'.subKey ∧
        k ∈ m'.store.keys ∧ m'.store.childNames k = [] := by
  intro cs c f
  induction f generalizing cs c with
  | zero => intro m _ _ _ _ _ _ _ hf; simp at hf
  | succ f ih =>
    intro m hwf hk hh hkids hleaves hpre hfit hf
    have hc : k ++ [c] ∈ m.store.keys := mem_childNames.1 (by rw [hkids]; simp)
    have hleafc : m.store.childNames (k ++ [c]) = [] := hleaves c (by simp)
    obtain ⟨m1, hkeys1, hh1, hsub1, hlog1, hstep⟩ := registry_iteration_leaf rootKey F k P hP
      regKey hend c f m hwf hc hleafc hpre hfit
    rw [hstep]
    have hwf1 : m1.store.WF := WF_delete_leaf hwf hc hleafc hkeys1
    have hkids1 : m1.store.childNames k = cs := by
      simp only [Registry.childNames, hkeys1]
      exact filterMap_child_after_delete k c m.store.keys cs hwf.nodup hkids
    have hk1 : k ∈ m1.store.keys := by
      rw [hkeys1]
      refine List.mem_filter.2 ⟨hk, ?_⟩
      have : k ≠ k ++ [c] := fun h => by
        have := congrArg List.length h
        simp at this
      simp [this]
    have hhandles1 : m1.store.handles = (regKey, k) :: H := by rw [hh1, hh]
    have hpre1 : (P ++ [SEP]) <+: m1.subKey := by rw [hsub1]; exact List.prefix_append _ _
    cases cs with
    | nil =>
      have henum : callEnum registry regKey m1
          = (ERROR_NO_MORE_ITEMS, [], { m1 with log := m1.log ++
              [Event.enumKey regKey 0 ERROR_NO_MORE_ITEMS []] }) := by
        simp [callEnum, registry_enum_none m1.store regKey k H MAX_PATH hhandles1 hkids1]
      have hne : ERROR_NO_MORE_ITEMS ≠ ERROR_SUCCESS := by decide
      simp only [henum, hne, if_false]
      refine ⟨_, rfl, ?_, hh1, hpre1, hk1, hkids1⟩
      simp [hlog1, childLog]
    | cons c2 cs =>
      have henum : callEnum registry regKey m1
          = (ERROR_SUCCESS, c2, { m1 with log := m1.log ++
              [Event.enumKey regKey 0 ERROR_SUCCESS c2] }) := by
        simp [callEnum, registry_enum_some m1.store regKey k H MAX_PATH c2 cs hhandles1 hkids1]
      simp only [henum, if_true]
      obtain ⟨m2, hloop, hlog2, hh2, hpre2, hk2, hkids2⟩ := ih cs c2
        { m1 with log := m1.log ++ [Event.enumKey regKey 0 ERROR_SUCCESS c2] }
        hwf1 hk1 hhandles1 hkids1
        (by
          intro c3 hc3
          apply childNames_eq_nil.2
          intro c4 hc4
          rw [hkeys1] at hc4
          exact childNames_eq_nil.1 (hleaves c3 (List.mem_cons_of_mem _ hc3)) c4
            (List.mem_filter.1 hc4).1)
        hpre1 (Fits_remove _ hkeys1 hfit) (by simpa using hf)
      refine ⟨m2, hloop, ?_, by rw [hh2]; exact hh1, hpre2, hk2, hkids2⟩
      rw [hlog2]
      simp [hlog1, childLog]

/-- One unfolding of `RegDelnodeRecurse`. -/
theorem RegDelnodeRecurse_succ (S : Store σ) (rootKey : HKEY) (fuel : Nat) (m : Machine σ) :
    RegDelnodeRecurse S rootKey (fuel + 1) m
      = if (callDelete S rootKey { m with log := m.log ++ [Event.enter m.subKey] }).1
            = ERROR_SUCCESS then
          some (.returned true,
            { (callDelete S rootKey { m with log := m.log ++ [Event.enter m.subKey] }).2 with
              log := (callDelete S rootKey
                { m with log := m.log ++ [Event.enter m.subKey] }).2.log ++
                  [Event.leave m.subKey true] })
        else if (callOpen S rootKey (callDelete S rootKey
            { m with log := m.log ++ [Event.enter m.subKey] }).2).1 ≠ ERROR_SUCCESS then
          if (callOpen S rootKey (callDelete S rootKey
              { m with log := m.log ++ [Event.enter m.subKey] }).2).1 = ERROR_FILE_NOT_FOUND then
            some (.returned true,
              { (callOpen S rootKey (callDelete S rootKey
                  { m with log := m.log ++ [Event.enter m.subKey] }).2).2.2 with
                log := (callOpen S rootKey (callDelete S rootKey
                  { m with log := m.log ++ [Event.enter m.subKey] }).2).2.2.log ++
                    [Event.leave m.subKey true] })
          else
            some (.returned false,
              { (callOpen S rootKey (callDelete S rootKey
                  { m with log := m.log ++ [Event.enter m.subKey] }).2).2.2 with
                log := (callOpen S rootKey (callDelete S rootKey
                  { m with log := m.log ++ [Event.enter m.subKey] }).2).2.2.log ++
                    [Event.leave m.subKey false] })
        else
          walkNode S rootKey (RegDelnodeRecurse S rootKey fuel) fuel
            (callOpen S rootKey (callDelete S rootKey
              { m with log := m.log ++ [Event.enter m.subKey] }).2).2.1
            (callOpen S rootKey (callDelete S rootKey
              { m with log := m.log ++ [Event.enter m.subKey] }).2).2.2 := rfl

/-- C9 (as amended): on the well-behaved store holding a tree, for every
existing node that has at least one child, whose children are all leaves and
whose own path and children's paths fit the 2048-unit buffer, and with more
fuel than it has children, `DeleteRegistryPath` returns `TRUE` and makes
exactly these registry calls, in this order: the delete of the path, refused;
the open of the path, which yields the handle; for each child, in the order in
which the store enumerates them, the enumeration at index 0 that yields the
child and the successful delete of the child's path; the enumeration at
index 0 that reports `ERROR_NO_MORE_ITEMS`; the close of the handle; the
successful delete of the path. -/
theorem leaf_children_call_sequence (hKeyRoot : HKEY) (s : Registry) (subKey : CStr)
    (fuel : Nat) (hwf : s.WF) (hex : splitPath subKey ∈ s.keys)
    (hkids : s.childNames (splitPath subKey) ≠ [])
    (hleaves : ∀ c ∈ s.childNames (splitPath subKey),
      s.childNames (splitPath subKey ++ [c]) = [])
    (hfit : s.Fits (splitPath subKey))
    (hfuel : (s.childNames (splitPath subKey)).length < fuel) :
    ∃ m', DeleteRegistryPath registry fuel hKeyRoot s subKey = some (.returned true, m') ∧
      m'.log.filter Event.isStoreCall
        = [.deleteKey hKeyRoot subKey ERROR_ACCESS_DENIED,
           .openKey hKeyRoot subKey ERROR_SUCCESS s.nextHandle] ++
          childCalls hKeyRoot s.nextHandle subKey (s.childNames (splitPath subKey)) ++
          [.enumKey s.nextHandle 0 ERROR_NO_MORE_ITEMS [], .closeKey s.nextHandle,
           .deleteKey hKeyRoot subKey ERROR_SUCCESS] := by
  obtain ⟨c, cs, hcs⟩ : ∃ c cs, s.childNames (splitPath subKey) = c :: cs := by
    cases h : s.childNames (splitPath subKey) with
    | nil => exact absurd h hkids
    | cons c cs => exact ⟨c, cs, rfl⟩
  rw [hcs] at hfuel hleaves ⊢
  obtain ⟨F, rfl⟩ : ∃ F, fuel = F + 2 := ⟨fuel - 2, by simp at hfuel; omega⟩
  have hlen : subKey.length < SUBKEY_BUFFER_SIZE := hfit subKey hex (List.prefix_refl _)
  have hnames := hwf.names _ hex
  obtain ⟨hPne, hPsep⟩ := path_of_names subKey (fun x hx => (hnames.2 x hx).1)
  have hc : splitPath subKey ++ [c] ∈ s.keys := mem_childNames.1 (by rw [hcs]; simp)
  have hcsep : SEP ∉ c := ((hwf.names _ hc).2 c (by simp)).2
  have hend : subKey.length + 1 < SUBKEY_BUFFER_SIZE := by
    have := hfit (subKey ++ [SEP] ++ c)
      (by rw [splitPath_child _ c hcsep]; exact hc)
      (by rw [splitPath_child _ c hcsep]; exact List.prefix_append _ _)
    simp only [List.length_append, List.length_singleton] at this
    omega
  have hlen0 : subKey.length ≠ 0 := fun h => hPne (List.length_eq_zero.1 h)
  have hdel : callDelete registry hKeyRoot
      { store := s, subKey := subKey, log := [] ++ [Event.enter subKey] }
      = (ERROR_ACCESS_DENIED,
          { store := s, subKey := subKey,
            log := [.enter subKey, .deleteKey hKeyRoot subKey ERROR_ACCESS_DENIED] }) := by
    simp [callDelete, registry_delete_inner s hKeyRoot subKey hex hkids]
  have hopen : callOpen registry hKeyRoot
      { store := s, subKey := subKey,
        log := [.enter subKey, .deleteKey hKeyRoot subKey ERROR_ACCESS_DENIED] }
      = (ERROR_SUCCESS, s.nextHandle,
          { store := { s with handles := (s.nextHandle, splitPath subKey) :: s.handles,
                              nextHandle := s.nextHandle + 1 },
            subKey := subKey,
            log := [.enter subKey, .deleteKey hKeyRoot subKey ERROR_ACCESS_DENIED,
                    .openKey hKeyRoot subKey ERROR_SUCCESS s.nextHandle] }) := by
    simp [callOpen, registry_open s hKeyRoot subKey hex]
  have henum : callEnum registry s.nextHandle
      { store := { s with handles := (s.nextHandle, splitPath subKey) :: s.handles,
                          nextHandle := s.nextHandle + 1 },
        subKey := subKey ++ [SEP],
        log := [.enter subKey, .deleteKey hKeyRoot subKey ERROR_ACCESS_DENIED,
                .openKey hKeyRoot subKey ERROR_SUCCESS s.nextHandle] }
      = (ERROR_SUCCESS, c,
          { store := { s with handles := (s.nextHandle, splitPath subKey) :: s.handles,
                              nextHandle := s.nextHandle + 1 },
            subKey := subKey ++ [SEP],
            log := [.enter subKey, .deleteKey hKeyRoot subKey ERROR_ACCESS_DENIED,
                    .openKey hKeyRoot subKey ERROR_SUCCESS s.nextHandle,
                    .enumKey s.nextHandle 0 ERROR_SUCCESS c] }) := by
    simp [callEnum, registry_enum_some
      { s with handles := (s.nextHandle, splitPath subKey) :: s.handles,
               nextHandle := s.nextHandle + 1 }
      s.nextHandle (splitPath subKey) s.handles MAX_PATH c cs rfl hcs]
  obtain ⟨m3, hloop, hlog3, hh3, hpre3, hk3, hkids3⟩ := registry_loop_leaves hKeyRoot F
    (splitPath subKey) subKey rfl s.nextHandle s.handles hend cs c (F + 1)
    { store := { s with handles := (s.nextHandle, splitPath subKey) :: s.handles,
                        nextHandle := s.nextHandle + 1 },
      subKey := subKey ++ [SEP],
      log := [.enter subKey, .deleteKey hKeyRoot subKey ERROR_ACCESS_DENIED,
              .openKey hKeyRoot subKey ERROR_SUCCESS s.nextHandle,
              .enumKey s.nextHandle 0 ERROR_SUCCESS c] }
    ⟨hwf.names, hwf.parents, hwf.nodup⟩ hex rfl hcs hleaves (List.prefix_refl _) hfit
    (by simp at hfuel; omega)
  have htake : m3.subKey.take (subKey.length + 1 - 1) = subKey := by
    have h1 : subKey <+: m3.subKey := (List.prefix_append _ _).trans hpre3
    simpa using ((List.prefix_iff_eq_take).1 h1).symm
  have hclose : callClose registry s.nextHandle { m3 with subKey := subKey }
      = { store := { m3.store with handles := s.handles }, subKey := subKey,
          log := m3.log ++ [Event.closeKey s.nextHandle] } := by
    simp [callClose, registry_close m3.store s.nextHandle _ s.handles hh3]
  have hdel2 : callDelete registry hKeyRoot
      { store := { m3.store with handles := s.handles }, subKey := subKey,
        log := m3.log ++ [Event.closeKey s.nextHandle] }
      = (ERROR_SUCCESS,
          { store := { m3.store with
              keys := m3.store.keys.filter (fun q => q ≠ splitPath subKey),
              handles := s.handles },
            subKey := subKey,
            log := m3.log ++ [Event.closeKey s.nextHandle] ++
              [Event.deleteKey hKeyRoot subKey ERROR_SUCCESS] }) := by
    simp [callDelete, registry_delete_leaf { m3.store with handles := s.handles } hKeyRoot subKey
      hk3 hkids3]
  have hne : ERROR_ACCESS_DENIED ≠ ERROR_SUCCESS := by decide
  have hrun : DeleteRegistryPath registry (F + 2) hKeyRoot s subKey
      = some (.returned true,
          { store := { m3.store with
              keys := m3.store.keys.filter (fun q => q ≠ splitPath subKey),
              handles := s.handles },
            subKey := subKey,
            log := m3.log ++ [Event.closeKey s.nextHandle] ++
              [Event.deleteKey hKeyRoot subKey ERROR_SUCCESS] ++ [Event.leave subKey true] }) := by
    simp only [DeleteRegistryPath, strcpy_s, hlen, if_true]
    rw [RegDelnodeRecurse_succ]
    simp only [hdel, hne, if_false, hopen, ne_eq, not_true_eq_false, walkNode, appendSeparator,
      hlen0, hPsep, not_false_eq_true, if_true, hend, enumChildren, henum, hloop, finishNode,
      htake, hclose, hdel2, decide_True]
  refine ⟨_, hrun, ?_⟩
  simp only [hlog3, List.filter_append, childLog_storeCalls, childCalls]
  simp [Event.isStoreCall]

/-- The flat sample is a tree. -/
theorem sampleFlat_WF : sampleFlat.WF := ⟨by decide, by decide, by decide⟩

/-- Every path into the flat sample fits the buffer. -/
theorem sampleFlat_Fits (k : List CStr) : sampleFlat.Fits k := by
  intro Q hQ _
  have hlen := splitPath_length Q
  simp only [sampleFlat, List.mem_cons, List.mem_singleton, List.not_mem_nil, or_false] at hQ
  rcases hQ with h | h | h | h <;>
    · rw [h] at hlen
      simp only [List.map_cons, List.map_nil, List.sum_cons, List.sum_nil, List.length_cons,
        List.length_nil] at hlen
      simp only [SUBKEY_BUFFER_SIZE]
      omega

/-- C9, witness: `A` with its children `B` and `C` in the flat sample. -/
theorem leaf_children_call_sequence_witness :
    ∃ m', DeleteRegistryPath registry 3 0 sampleFlat pathA = some (.returned true, m') ∧
      m'.log.filter Event.isStoreCall
        = [.deleteKey 0 pathA ERROR_ACCESS_DENIED,
           .openKey 0 pathA ERROR_SUCCESS sampleFlat.nextHandle] ++
          childCalls 0 sampleFlat.nextHandle pathA (sampleFlat.childNames (splitPath pathA)) ++
          [.enumKey sampleFlat.nextHandle 0 ERROR_NO_MORE_ITEMS [],
           .closeKey sampleFlat.nextHandle, .deleteKey 0 pathA ERROR_SUCCESS] :=
  leaf_children_call_sequence 0 sampleFlat pathA 3 sampleFlat_WF (by decide) (by decide)
    (by decide) (sampleFlat_Fits _) (by decide)

/-- On the well-behaved store, a child whose path does not fit the buffer
ends the run in the fatal path. -/
theorem registry_child_too_long (hKeyRoot : HKEY) (s : Registry) (subKey : CStr) (F : Nat)
    (c : CStr) (cs : List CStr) (hex : splitPath subKey ∈ s.keys)
    (hcs : s.childNames (splitPath subKey) = c :: cs)
    (hPne : subKey ≠ []) (hPsep : subKey.getLast? ≠ some SEP)
    (hend : subKey.length + 1 < SUBKEY_BUFFER_SIZE)
    (hlong : ¬ (subKey ++ [SEP]).length + c.length < SUBKEY_BUFFER_SIZE) :
    DeleteRegistryPath registry (F + 2) hKeyRoot s subKey
      = some (.aborted .fatal,
          { store := { s with handles := (s.nextHandle, splitPath subKey) :: s.handles,
                              nextHandle := s.nextHandle + 1 },
            subKey := subKey ++ [SEP],
            log := [.enter subKey, .deleteKey hKeyRoot subKey ERROR_ACCESS_DENIED,
                    .openKey hKeyRoot subKey ERROR_SUCCESS s.nextHandle,
                    .enumKey s.nextHandle 0 ERROR_SUCCESS c] }) := by
  have hlen : subKey.length < SUBKEY_BUFFER_SIZE := by omega
  have hlen0 : subKey.length ≠ 0 := fun h => hPne (List.length_eq_zero.1 h)
  have hkids : s.childNames (splitPath subKey) ≠ [] := by simp [hcs]
  have hdel : callDelete registry hKeyRoot
      { store := s, subKey := subKey, log := [] ++ [Event.enter subKey] }
      = (ERROR_ACCESS_DENIED,
          { store := s, subKey := subKey,
            log := [.enter subKey, .deleteKey hKeyRoot subKey ERROR_ACCESS_DENIED] }) := by
    simp [callDelete, registry_delete_inner s hKeyRoot subKey hex hkids]
  have hopen : callOpen registry hKeyRoot
      { store := s, subKey := subKey,
        log := [.enter subKey, .deleteKey hKeyRoot subKey ERROR_ACCESS_DENIED] }
      = (ERROR_SUCCESS, s.nextHandle,
          { store := { s with handles := (s.nextHandle, splitPath subKey) :: s.handles,
                              nextHandle := s.nextHandle + 1 },
            subKey := subKey,
            log := [.enter subKey, .deleteKey hKeyRoot subKey ERROR_ACCESS_DENIED,
                    .openKey hKeyRoot subKey ERROR_SUCCESS s.nextHandle] }) := by
    simp [callOpen, registry_open s hKeyRoot subKey hex]
  have henum : callEnum registry s.nextHandle
      { store := { s with handles := (s.nextHandle, splitPath subKey) :: s.handles,
                          nextHandle := s.nextHandle + 1 },
        subKey := subKey ++ [SEP],
        log := [.enter subKey, .deleteKey hKeyRoot subKey ERROR_ACCESS_DENIED,
                .openKey hKeyRoot subKey ERROR_SUCCESS s.nextHandle] }
      = (ERROR_SUCCESS, c,
          { store := { s with handles := (s.nextHandle, splitPath subKey) :: s.handles,
                              nextHandle := s.nextHandle + 1 },
            subKey := subKey ++ [SEP],
            log := [.enter subKey, .deleteKey hKeyRoot subKey ERROR_ACCESS_DENIED,
                    .openKey hKeyRoot subKey ERROR_SUCCESS s.nextHandle,
                    .enumKey s.nextHandle 0 ERROR_SUCCESS c] }) := by
    simp [callEnum, registry_enum_some
      { s with handles := (s.nextHandle, splitPath subKey) :: s.handles,
               nextHandle := s.nextHandle + 1 }
      s.nextHandle (splitPath subKey) s.handles MAX_PATH c cs rfl hcs]
  have hne : ERROR_ACCESS_DENIED ≠ ERROR_SUCCESS := by decide
  have htake : (subKey ++ [SEP]).take (subKey.length + 1) = subKey ++ [SEP] :=
    List.take_of_length_le (by simp)
  simp only [DeleteRegistryPath, strcpy_s, hlen, if_true]
  rw [RegDelnodeRecurse_succ]
  simp only [hdel, hne, if_false, hopen, ne_eq, not_true_eq_false, walkNode, appendSeparator,
    hlen0, hPsep, not_false_eq_true, if_true, hend, enumChildren, henum, enumLoop, htake,
    strcat_s, hlong]

theorem longName_length : longName.length = 2046 := List.length_replicate _ _

theorem longName_no_sep : SEP ∉ longName := by
  intro h
  have := List.eq_of_mem_replicate h
  revert this
  decide

theorem longName_split : splitPath longName = [longName] :=
  splitPath_of_not_mem longName longName_no_sep

theorem longName_ne_nil : longName ≠ [] := by
  intro h
  have := congrArg List.length h
  rw [longName_length] at this
  simp at this

/-- C9, counterexample to the claim as stated (for every node whose children
are leaves): the store `longParent` is a tree, the node named by `longName`
(2046 characters) exists and has the one child `B`, a leaf, and
`DeleteRegistryPath` on it ends in the fatal path: with the separator and `B`
the child's path needs 2049 units. -/
theorem leaf_children_too_long_counterexample :
    longParent.WF ∧ splitPath longName ∈ longParent.keys ∧
    longParent.childNames (splitPath longName) = [['B']] ∧
    longParent.childNames (splitPath longName ++ [['B']]) = [] ∧
    ∃ m', DeleteRegistryPath registry 3 0 longParent longName = some (.aborted .fatal, m') := by
  have hne := longName_ne_nil
  have hsep := longName_no_sep
  have hkids : longParent.childNames (splitPath longName) = [['B']] := by
    rw [longName_split]
    simp [Registry.childNames, longParent]
  refine ⟨⟨?_, ?_, ?_⟩, ?_, hkids, ?_, ?_⟩
  · intro q hq
    simp only [longParent, List.mem_cons, List.mem_singleton, List.not_mem_nil, or_false] at hq
    rcases hq with rfl | rfl
    · simp [hne, hsep]
    · have hB : ¬ SEP = 'B' := by decide
      simp [hne, hsep, hB]
  · intro q hq
    simp only [longParent, List.mem_cons, List.mem_singleton, List.not_mem_nil, or_false] at hq
    rcases hq with rfl | rfl
    · simp
    · simp [longParent]
  · simp [longParent]
  · rw [longName_split]; simp [longParent]
  · rw [longName_split]
    simp [Registry.childNames, longParent]
  · refine ⟨_, registry_child_too_long 0 longParent longName 1 ['B'] [] ?_ hkids hne ?_ ?_ ?_⟩
    · rw [longName_split]; simp [longParent]
    · exact (path_of_names longName (by rw [longName_split]; simp [hne])).2
    · rw [longName_length]; simp [SUBKEY_BUFFER_SIZE]
    · simp [longName_length, SUBKEY_BUFFER_SIZE]

end Folcolor
